import Mathlib

/-! Verification of remote-sensors-server, a device telemetry hub.

A shallow embedding of the Go packages `pkg/manager` (metric aggregation and the
device registry), `pkg/broadcaster` (the fan-out hub) and `pkg/mqtt` (topic
validation and routing), followed by the properties established about them.

Modelling conventions

* `time.Time` is a `Nat`: nanoseconds elapsed since the zero `time.Time`. The
  program only ever holds the zero value (`0`) and readings of `time.Now()`, and
  the clock does not read before the zero time. `time.Now()` is a parameter `now`
  of each operation, which is taken to happen at that one instant. A
  `time.Duration` is an `Int`.
* `float64` is `F64`: a finite value carried by its exact rational value, or the
  single value `nonFinite` standing for NaN, +Inf and -Inf. Each operation rounds
  its exact result to binary64 (nearest, ties to even, overflow to infinity).
* a Go `map` is an association list; ranging over the map visits the list in
  order, and every statement is proved for every list, hence for every order.
* a channel is identified by a natural number; `make(chan T)` takes the next
  unused one.
-/

namespace RemoteSensors

/-! ## Go maps as association lists -/

/-- The lookup `m[k]` with the comma-ok result: the first entry stored under `k`. -/
def mapGet {κ α : Type} [DecidableEq κ] : List (κ × α) → κ → Option α
  | [], _ => none
  | (k, v) :: rest, key => if k = key then some v else mapGet rest key

/-- The test `_, ok := m[k]`. -/
def mapHas {κ α : Type} [DecidableEq κ] (m : List (κ × α)) (key : κ) : Bool :=
  (mapGet m key).isSome

/-- The assignment `m[k] = v`: overwrite the entry of `k` in place, or add one. -/
def mapSet {κ α : Type} [DecidableEq κ] : List (κ × α) → κ → α → List (κ × α)
  | [], key, v => [(key, v)]
  | (k, w) :: rest, key, v =>
      if k = key then (k, v) :: rest else (k, w) :: mapSet rest key v

/-- The keys of a map, in iteration order. -/
def mapKeys {κ α : Type} (m : List (κ × α)) : List κ := m.map Prod.fst

/-- Whether a call returned normally: no error, no `os.Exit`, no panic. -/
def returns {α : Type} : Except String α → Bool
  | .ok _ => true
  | .error _ => false

/-! ## Time -/

/-- One second, as a `time.Duration` (nanoseconds). -/
def second : Int := 1000000000

/-- One minute, as a `time.Duration`. -/
def minute : Int := 60 * second

/-- The largest `time.Duration` (`1<<63 - 1`). -/
def maxDuration : Int := 9223372036854775807

/-- The smallest `time.Duration` (`-1 << 63`). -/
def minDuration : Int := -9223372036854775808

/-- The call `time.Since(t)` made at instant `now`: `now.Sub(t)`, which saturates
at the ends of the `Duration` range instead of wrapping. -/
def since (now t : Nat) : Int :=
  if (now : Int) - (t : Int) > maxDuration then maxDuration
  else if (now : Int) - (t : Int) < minDuration then minDuration
  else (now : Int) - (t : Int)

/-! ## float64

A finite `float64` is carried by its exact value, a rational; NaN, +Inf and -Inf
are one value `nonFinite` (the program only adds to them, multiplies and divides
them by finite numbers, compares them with 0 and encodes them, and all three
behave alike there), and so are +0 and -0. Every arithmetic operation computes
the exact result and rounds it as IEEE 754 binary64 does, by `F64.ofRat`. -/

/-- A `float64`: a finite value, or one of NaN, +Inf, -Inf (not told apart). -/
inductive F64 where
  | fin (q : ℚ)
  | nonFinite
  deriving DecidableEq

namespace F64

/-- The number of halvings that bring `n` below 2: the floor of its binary
logarithm, for `n` positive and `fuel` at least that large. -/
def log2Fuel : Nat → Nat → Nat
  | 0, _ => 0
  | fuel + 1, n => if n < 2 then 0 else log2Fuel fuel (n / 2) + 1

/-- The floor of the binary logarithm of `n / d`, for `n` and `d` positive. -/
def floorLog2 (n d : Nat) : Int :=
  let e0 : Int := (log2Fuel n n : Int) - (log2Fuel d d : Int)
  if e0 ≥ 0 then (if d * 2 ^ e0.toNat ≤ n then e0 else e0 - 1)
  else (if d ≤ n * 2 ^ (-e0).toNat then e0 else e0 - 1)

/-- The integer nearest to `N / D`, a tie going to the even one. -/
def roundEven (N D : Nat) : Nat :=
  if 2 * (N % D) < D then N / D
  else if 2 * (N % D) > D then N / D + 1
  else if (N / D) % 2 = 0 then N / D else N / D + 1

/-- The binary64 value of an exact result: the nearest number of the form
`m * 2 ^ e` with `m < 2 ^ 53` and `e ≥ -1074`, ties to the even `m`, and an
infinity when that number is `2 ^ 1024` or more. -/
def ofRat (q : ℚ) : F64 :=
  if q.num.natAbs = 0 then fin 0
  else
    let e : Int := max (-1074) (floorLog2 q.num.natAbs q.den - 52)
    let m : Nat :=
      if e ≥ 0 then roundEven q.num.natAbs (q.den * 2 ^ e.toNat)
      else roundEven (q.num.natAbs * 2 ^ (-e).toNat) q.den
    let mag : ℚ := if e ≥ 0 then ((m * 2 ^ e.toNat : Nat) : ℚ) else mkRat m (2 ^ (-e).toNat)
    if mag ≥ ((2 ^ 1024 : Nat) : ℚ) then nonFinite
    else fin (if q < 0 then -mag else mag)

/-- The operator `+` on `float64`. -/
def add : F64 → F64 → F64
  | fin a, fin b => ofRat (a + b)
  | _, _ => nonFinite

/-- The comparison `x == 0`; false on NaN and on the infinities. -/
def isZero : F64 → Bool
  | fin q => decide (q = 0)
  | nonFinite => false

/-- The product of `x` and a finite non-zero `float64` of exact value `c`. -/
def mulBy : F64 → ℚ → F64
  | fin q, c => ofRat (q * c)
  | nonFinite, _ => nonFinite

/-- The quotient of `x` by a finite `float64` of exact value `c`; a division by
zero gives NaN or an infinity. -/
def divBy : F64 → ℚ → F64
  | fin q, c => if c = 0 then nonFinite else ofRat (q / c)
  | nonFinite, _ => nonFinite

/-- The quotient `x / float64(n)` for an `int` count `n`. The conversion
`float64(n)` is exact below `2 ^ 53`, more entries than a Go map can hold. -/
def divCount (x : F64) (n : Nat) : F64 :=
  divBy x n

/-- The nearest integer to a finite value, halves away from zero. -/
def roundHalfAway (q : ℚ) : ℤ :=
  if 0 ≤ q then ⌊q + 1 / 2⌋ else -⌊-q + 1 / 2⌋

/-- The function `math.Round`; its result on a finite `float64` is an integer
that is a `float64` too. -/
def mathRound : F64 → F64
  | fin q => fin (roundHalfAway q)
  | nonFinite => nonFinite

/-- The expression `math.Round(x*output) / output` with `output = math.Pow(10, 2)`,
which is exactly 100. -/
def round2 (x : F64) : F64 :=
  divBy (mathRound (mulBy x 100)) 100

/-- Whether the value is neither NaN nor infinite. -/
def isFinite : F64 → Bool
  | fin _ => true
  | nonFinite => false

/-- The `float64` sum of a list of values, added to `0` one after the other. -/
def sum (xs : List F64) : F64 :=
  xs.foldl add (fin 0)

end F64

/-! ## pkg/manager/metric.go -/

/-- The accumulator `average`. -/
structure average where
  sum : F64
  count : Nat

/-- The method `average.result`. -/
def average.result (a : average) : F64 :=
  if a.sum.isZero || a.count == 0 then F64.fin 0
  else F64.round2 (a.sum.divCount a.count)

/-- The struct `AggregatedMetric`: the samples, and whether the goroutine running
`Clean` (started by `NewAggregatedMetric`, ended by `Stop`) is still alive. -/
structure AggregatedMetric where
  values : List (Nat × F64)
  cleaning : Bool

/-- The constructor `NewAggregatedMetric`: no samples, and `go a.Clean()`. -/
def NewAggregatedMetric : AggregatedMetric :=
  { values := [], cleaning := true }

/-- The method `AggregatedMetric.Stop`: the send on `stop` makes `Clean` return. -/
def AggregatedMetric.Stop (a : AggregatedMetric) : AggregatedMetric :=
  { a with cleaning := false }

/-- The method `AggregatedMetric.Update`, called at instant `now`. -/
def AggregatedMetric.Update (a : AggregatedMetric) (now : Nat) (v : F64) : AggregatedMetric :=
  { a with values := mapSet a.values now v }

/-- One pass of the ticker branch of `Clean` at instant `now`. -/
def AggregatedMetric.cleanTick (a : AggregatedMetric) (now : Nat) : AggregatedMetric :=
  { a with values := a.values.filter (fun p => !decide (since now p.1 > second * 30)) }

/-- The anonymous struct serialised by `MarshalJSON`. -/
structure Snapshot where
  Last : F64
  Avg10s : F64
  Avg30s : F64
  deriving DecidableEq

/-- The local variables of the loop of `MarshalJSON`. -/
structure marshalLoop where
  mostRecentTime : Nat
  avg10s : average
  avg30s : average

/-- The body of the loop `for t, v := range a.values` of `MarshalJSON`. -/
def marshalStep (now : Nat) (st : marshalLoop) (tv : Nat × F64) : marshalLoop :=
  let mostRecentTime := if tv.1 > st.mostRecentTime then tv.1 else st.mostRecentTime
  let avg10s :=
    if since now tv.1 < 10 * second then
      { sum := st.avg10s.sum.add tv.2, count := st.avg10s.count + 1 }
    else st.avg10s
  let avg30s :=
    if since now tv.1 < 30 * second then
      { sum := st.avg30s.sum.add tv.2, count := st.avg30s.count + 1 }
    else st.avg30s
  { mostRecentTime := mostRecentTime, avg10s := avg10s, avg30s := avg30s }

/-- The struct value that `MarshalJSON` hands to `json.Marshal`. -/
def AggregatedMetric.snapshot (a : AggregatedMetric) (now : Nat) : Snapshot :=
  let st := a.values.foldl (marshalStep now)
    { mostRecentTime := 0, avg10s := ⟨F64.fin 0, 0⟩, avg30s := ⟨F64.fin 0, 0⟩ }
  { Last := (mapGet a.values st.mostRecentTime).getD (F64.fin 0),
    Avg10s := st.avg10s.result,
    Avg30s := st.avg30s.result }

/-- Whether `encoding/json` can encode the three numbers: it refuses NaN and the
infinities with an `UnsupportedValueError`. -/
def Snapshot.encodable (s : Snapshot) : Bool :=
  s.Last.isFinite && s.Avg10s.isFinite && s.Avg30s.isFinite

/-- The call `json.Marshal` on the snapshot struct; the encoded bytes are
represented by the value they encode. -/
def jsonMarshalSnapshot (s : Snapshot) : Except String Snapshot :=
  if s.encodable then .ok s else .error "json: unsupported value"

/-- The method `AggregatedMetric.MarshalJSON` at instant `now`: the metric after
the call, and the encoding or the error. -/
def AggregatedMetric.MarshalJSON (a : AggregatedMetric) (now : Nat) :
    AggregatedMetric × Except String Snapshot :=
  (a, jsonMarshalSnapshot (a.snapshot now))


/-! ## Reference definitions taken from the specification -/

/-- The maximum timestamp present in a sample set, if any. -/
def maxTimestamp : List Nat → Option Nat
  | [] => none
  | t :: ts =>
      match maxTimestamp ts with
      | none => some t
      | some m => some (max t m)

/-- Specification of `last`: the value at the maximum timestamp present, and `0`
for the empty sample set. -/
def specLast (vals : List (Nat × F64)) : F64 :=
  match maxTimestamp (mapKeys vals) with
  | none => F64.fin 0
  | some t => (mapGet vals t).getD (F64.fin 0)

/-- The samples whose age `now - timestamp` is strictly less than `window`, in
iteration order. -/
def inWindow (vals : List (Nat × F64)) (now : Nat) (window : Int) : List F64 :=
  (vals.filter (fun p => decide ((now : Int) - (p.1 : Int) < window))).map Prod.snd

/-- The arithmetic mean of a window in `float64` arithmetic: the sum of the
samples divided by their number. -/
def specMean (xs : List F64) : F64 :=
  (F64.sum xs).divCount xs.length

/-- The value `r` is `x` rounded to 2 decimal places in `float64` arithmetic:
with `y` the `float64` product of `x` and 100 and `k` the integer nearest to
`y`, a half going away from zero, `r` is the `float64` quotient of `k` by 100;
and `r` is NaN or infinite when `x` or `y` is. -/
def IsRounded2 (x r : F64) : Prop :=
  match x with
  | .nonFinite => r = .nonFinite
  | .fin q =>
      match F64.ofRat (q * 100) with
      | .nonFinite => r = .nonFinite
      | .fin y =>
          ∃ k : ℤ, |y - k| ≤ 1 / 2 ∧ (|y - k| = 1 / 2 → |y| < |(k : ℚ)|) ∧
            r = F64.ofRat (k / 100)

/-- Specification of a rolling average: `r` is 0 for an empty window, and the
mean of the window rounded to 2 decimal places otherwise. -/
def IsWindowAvg (xs : List F64) (r : F64) : Prop :=
  (xs = [] ∧ r = F64.fin 0) ∨ (xs ≠ [] ∧ IsRounded2 (specMean xs) r)

/-! ## pkg/broadcaster/server.go -/

/-- The struct `Server[T]`. `listeners` is the slice of subscriber channels. The
remaining fields record what the goroutine running `serve` has done: how many
channels `Subscribe` has made, the `close` calls and the sends `listener <- val`
in the order they happened, and whether `serve` has returned. -/
structure Server (T : Type) where
  listeners : List Nat
  made : Nat
  closed : List Nat
  delivered : List (Nat × T)
  stopped : Bool

/-- A message taken by the `select` of `serve`: a receive on `shutdown`, on
`addListener` (the channel is the one `Subscribe` has just made), on
`removeListener`, on `source`, and the receive on a closed `source`. -/
inductive Msg (T : Type) where
  | shutdown
  | subscribe
  | unsubscribe (c : Nat)
  | publish (val : T)
  | sourceClosed

/-- The constructor `New`: no listener, and `go server.serve()`. -/
def Server.New (T : Type) : Server T :=
  { listeners := [], made := 0, closed := [], delivered := [], stopped := false }

/-- The method `ActiveSubscribers`. -/
def Server.ActiveSubscribers {T : Type} (s : Server T) : Nat :=
  s.listeners.length

/-- The two statements `s.listeners[i] = s.listeners[len(s.listeners)-1]` and
`s.listeners = s.listeners[:len(s.listeners)-1]`. -/
def swapRemove (l : List Nat) (i : Nat) : List Nat :=
  match l.getLast? with
  | none => l
  | some last => (l.set i last).dropLast

/-- The deferred function of `serve`: close every listener still in the slice
(each was made by `make`, so the test `listener != nil` always passes). -/
def Server.closeAll {T : Type} (s : Server T) : Server T :=
  { s with closed := s.closed ++ s.listeners, stopped := true }

/-- One iteration of the loop of `serve`. Once `serve` has returned no message is
received any more. -/
def Server.serve {T : Type} (s : Server T) (m : Msg T) : Server T :=
  if s.stopped then s
  else
    match m with
    | .shutdown => s.closeAll
    | .subscribe => { s with listeners := s.listeners ++ [s.made], made := s.made + 1 }
    | .unsubscribe c =>
        if c ∈ s.listeners then
          { s with listeners := swapRemove s.listeners (s.listeners.indexOf c),
                   closed := s.closed ++ [c] }
        else s
    | .publish val =>
        { s with delivered := s.delivered ++ s.listeners.map (fun c => (c, val)) }
    | .sourceClosed => s.closeAll

/-- The loop of `serve` over the messages it receives, in order. -/
def Server.run {T : Type} (s : Server T) (msgs : List (Msg T)) : Server T :=
  msgs.foldl Server.serve s

/-- The method `Subscribe`: the channel made, and the hub once `serve` has taken
it from `addListener`. -/
def Server.Subscribe {T : Type} (s : Server T) : Nat × Server T :=
  (s.made, s.serve .subscribe)

/-- The method `Unsubscribe`. -/
def Server.Unsubscribe {T : Type} (s : Server T) (c : Nat) : Server T :=
  s.serve (.unsubscribe c)

/-- The method `Publish`. -/
def Server.Publish {T : Type} (s : Server T) (payload : T) : Server T :=
  s.serve (.publish payload)

/-- The method `Shutdown`. -/
def Server.Shutdown {T : Type} (s : Server T) : Server T :=
  s.serve .shutdown

/-- The payloads sent to channel `c`, in order. -/
def Server.deliveredTo {T : Type} (s : Server T) (c : Nat) : List T :=
  (s.delivered.filter (fun p => decide (p.1 = c))).map Prod.snd

/-- The handles that the calls of `Subscribe` have returned along a trace started
in state `s`. A call returns its channel once `serve` has taken it from
`addListener`; after `serve` has returned the call blocks and returns nothing. -/
def Server.handles {T : Type} : Server T → List (Msg T) → List Nat
  | _, [] => []
  | s, .subscribe :: rest =>
      (if s.stopped then [] else [s.Subscribe.1]) ++ Server.handles (s.serve .subscribe) rest
  | s, m :: rest => Server.handles (s.serve m) rest

/-- The number of `subscribe` messages of a trace. -/
def countSubscribes {T : Type} : List (Msg T) → Nat
  | [] => 0
  | .subscribe :: rest => countSubscribes rest + 1
  | _ :: rest => countSubscribes rest

/-- The number of `unsubscribe` messages of a trace. -/
def countUnsubscribes {T : Type} : List (Msg T) → Nat
  | [] => 0
  | .unsubscribe _ :: rest => countUnsubscribes rest + 1
  | _ :: rest => countUnsubscribes rest

/-- A trace of subscribes, unsubscribes and publishes in which every unsubscribe
names a handle that `Subscribe` has returned earlier (one of the `issued` first
ones) and that no earlier unsubscribe has named (`removed`). -/
def orderedTrace {T : Type} : List (Msg T) → Nat → List Nat → Prop
  | [], _, _ => True
  | .subscribe :: rest, issued, removed => orderedTrace rest (issued + 1) removed
  | .unsubscribe c :: rest, issued, removed =>
      c < issued ∧ c ∉ removed ∧ orderedTrace rest issued (c :: removed)
  | .publish _ :: rest, issued, removed => orderedTrace rest issued removed
  | .shutdown :: _, _, _ => False
  | .sourceClosed :: _, _, _ => False

/-- The invariant of the hub: the registered channels are distinct channels made
by `Subscribe`; no channel is closed twice; a channel made by `Subscribe` and no
longer registered is closed; while `serve` runs no registered channel is closed. -/
structure Server.Inv {T : Type} (s : Server T) : Prop where
  nodup : s.listeners.Nodup
  lt : ∀ c ∈ s.listeners, c < s.made
  closedNodup : s.closed.Nodup
  closedLt : ∀ c ∈ s.closed, c < s.made
  issued : ∀ c, c < s.made → c ∉ s.listeners → c ∈ s.closed
  running : s.stopped = false → ∀ c ∈ s.listeners, c ∉ s.closed

/-! ## config/manager.go and pkg/manager/client.go -/

/-- The struct `config.ManagerFields`. -/
structure ManagerFields where
  Metrics : List String
  Metadata : List String

/-- The struct `Updates`. -/
structure Updates where
  Metrics : List (String × F64)
  Metadata : List (String × String)

/-- The struct `payload`, after encoding: each metric by its `MarshalJSON`. -/
structure payload where
  Metadata : List (String × String)
  Metrics : List (String × Snapshot)
  deriving DecidableEq

/-- The struct `Device`. The hub behind the `Broadcaster` interface is the
`Server` of `pkg/broadcaster`, the metrics behind the `Metric` interface are
`AggregatedMetric` values. -/
structure Device where
  lastUpdate : Nat
  broadcaster : Server payload
  metrics : List (String × AggregatedMetric)
  metadata : List (String × String)

/-- The struct `Manager`, with `fields` pointing to a loaded configuration.
`sweeping` tells whether the goroutine running `clean` is alive; `deleted` records
the device objects that `delete(m.devices, deviceID)` has dropped from the map,
as they were at that moment. -/
structure Manager where
  devices : List (String × Device)
  fields : ManagerFields
  sweeping : Bool
  deleted : List (String × Device)

/-- The constructor `New`. -/
def Manager.New (fields : ManagerFields) : Manager :=
  { devices := [], fields := fields, sweeping := true, deleted := [] }

/-- The builtin `delete(m, k)`. -/
def mapDelete {κ α : Type} [DecidableEq κ] (m : List (κ × α)) (key : κ) : List (κ × α) :=
  m.filter (fun p => !decide (p.1 = key))

/-- The condition of the `if` in `removeStaleDevices`. -/
def Device.stale (device : Device) (now : Nat) : Bool :=
  decide (since now device.lastUpdate > minute) && device.broadcaster.ActiveSubscribers == 0

/-- The body of the loop of `removeStaleDevices` for one entry of the map. -/
def sweepStep (now : Nat) (acc : Manager) (entry : String × Device) : Manager :=
  if entry.2.stale now then
    { acc with devices := mapDelete acc.devices entry.1,
               deleted := acc.deleted ++ [entry] }
  else acc

/-- The method `removeStaleDevices`, run at instant `now`: the loop ranges over
the entries of the map and deletes the current one when it is stale. -/
def Manager.removeStaleDevices (m : Manager) (now : Nat) : Manager :=
  m.devices.foldl (sweepStep now) m

/-- The loop of `getOrCreateDevice` that makes one metric per configured name. -/
def newMetrics (names : List String) : List (String × AggregatedMetric) :=
  names.foldl (fun metrics k => mapSet metrics k NewAggregatedMetric) []

/-- The method `getOrCreateDevice`: the manager after the call and the device the
returned pointer refers to. -/
def Manager.getOrCreateDevice (m : Manager) (deviceID : String) : Manager × Device :=
  match mapGet m.devices deviceID with
  | some device => (m, device)
  | none =>
      let device : Device :=
        { lastUpdate := 0,
          broadcaster := Server.New payload,
          metrics := newMetrics m.fields.Metrics,
          metadata := [] }
      ({ m with devices := mapSet m.devices deviceID device }, device)

/-- The encoding of the `Metrics` map by `json.Marshal`: `MarshalJSON` of each
metric, the first error aborting the whole call. -/
def marshalMetrics (now : Nat) :
    List (String × AggregatedMetric) → Except String (List (String × Snapshot))
  | [] => .ok []
  | (k, a) :: rest =>
      match (a.MarshalJSON now).2 with
      | .error e => .error e
      | .ok s =>
          match marshalMetrics now rest with
          | .error e => .error e
          | .ok ss => .ok ((k, s) :: ss)

/-- The call `json.Marshal(payload{...})` of `publish`. -/
def jsonMarshalPayload (d : Device) (now : Nat) : Except String payload :=
  match marshalMetrics now d.metrics with
  | .error e => .error e
  | .ok ms => .ok { Metadata := d.metadata, Metrics := ms }

/-- The method `publish`: the device after the call and the payloads passed to
`d.broadcaster.Publish`, none when the encoding failed. -/
def Manager.publish (d : Device) (now : Nat) : Device × List payload :=
  match jsonMarshalPayload d now with
  | .error _ => (d, [])
  | .ok b => ({ d with broadcaster := d.broadcaster.Publish b }, [b])

/-- The first loop of `Update`: each entry of `updates.Metrics` is applied to the
metric of that name when the device has one. -/
def applyMetrics (now : Nat) (metrics : List (String × AggregatedMetric))
    (updates : List (String × F64)) : List (String × AggregatedMetric) :=
  updates.foldl
    (fun ms kv =>
      match mapGet ms kv.1 with
      | some metric => mapSet ms kv.1 (metric.Update now kv.2)
      | none => ms)
    metrics

/-- The second loop of `Update`: `device.metadata[metadataKey] = newValue`. -/
def applyMetadata (metadata updates : List (String × String)) : List (String × String) :=
  updates.foldl (fun md kv => mapSet md kv.1 kv.2) metadata

/-- What a call of `Update` leaves: the manager, the error returned (`none` is
`nil`), and the payloads it passed to the hub of the device. -/
structure UpdateResult where
  manager : Manager
  err : Option String
  published : List payload

/-- The method `Update`, called at instant `now`. -/
def Manager.Update (m : Manager) (deviceID : String) (updates : Updates) (now : Nat) :
    UpdateResult :=
  let (m1, device) := m.getOrCreateDevice deviceID
  let device := { device with lastUpdate := now }
  let device := { device with metrics := applyMetrics now device.metrics updates.Metrics }
  let device := { device with metadata := applyMetadata device.metadata updates.Metadata }
  let (device, sent) := Manager.publish device now
  { manager := { m1 with devices := mapSet m1.devices deviceID device },
    err := none,
    published := sent }

/-- The method `Subscribe`: the manager after the call and the channel returned. -/
def Manager.Subscribe (m : Manager) (deviceID : String) : Manager × Nat :=
  let (m1, device) := m.getOrCreateDevice deviceID
  let (c, hub) := device.broadcaster.Subscribe
  let device := { device with broadcaster := hub }
  ({ m1 with devices := mapSet m1.devices deviceID device }, c)

/-- The method `Unsubscribe`. -/
def Manager.Unsubscribe (m : Manager) (deviceID : String) (c : Nat) : Manager :=
  let (m1, device) := m.getOrCreateDevice deviceID
  let device := { device with broadcaster := device.broadcaster.Unsubscribe c }
  { m1 with devices := mapSet m1.devices deviceID device }

/-- The method `Shutdown`: stop the sweep, shut every hub down. -/
def Manager.Shutdown (m : Manager) : Manager :=
  { m with sweeping := false,
           devices := m.devices.map
             (fun entry => (entry.1, { entry.2 with broadcaster := entry.2.broadcaster.Shutdown })) }

/-- A call made on the manager, or a tick of its sweep. -/
inductive Op where
  | update (deviceID : String) (updates : Updates) (now : Nat)
  | subscribe (deviceID : String)
  | unsubscribe (deviceID : String) (c : Nat)
  | sweep (now : Nat)
  | shutdown

/-- The manager after one call. -/
def Manager.step (m : Manager) : Op → Manager
  | .update deviceID updates now => (m.Update deviceID updates now).manager
  | .subscribe deviceID => (m.Subscribe deviceID).1
  | .unsubscribe deviceID c => m.Unsubscribe deviceID c
  | .sweep now => if m.sweeping then m.removeStaleDevices now else m
  | .shutdown => m.Shutdown

/-- The manager after a sequence of calls. -/
def Manager.exec (m : Manager) (ops : List Op) : Manager :=
  ops.foldl Manager.step m

/-- The metric names of every registered device are the configured ones. -/
def Manager.Inv (m : Manager) : Prop :=
  ∀ entry ∈ m.devices, ∀ k, k ∈ mapKeys entry.2.metrics ↔ k ∈ m.fields.Metrics

/-! ## config/mqtt.go and pkg/mqtt/consumer.go

Strings are handled as their lists of characters. All strings here come from
YAML and MQTT topic names, which are valid UTF-8, where the byte-wise functions
of package `strings` agree with the character-wise ones below. -/

/-- Whether `s` begins with `p` (`strings.HasPrefix`). -/
def startsWith : List Char → List Char → Bool
  | _, [] => true
  | [], _ :: _ => false
  | c :: s, d :: p => c == d && startsWith s p

/-- The function `strings.Contains`. -/
def stringsContains : List Char → List Char → Bool
  | [], sub => startsWith [] sub
  | c :: s, sub => startsWith (c :: s) sub || stringsContains s sub

/-- The call `strings.Replace(s, old, new, 1)`: the first occurrence of `old`
replaced by `new`. -/
def stringsReplace1 : List Char → List Char → List Char → List Char
  | [], old, new => if startsWith [] old then new else []
  | c :: s, old, new =>
      if startsWith (c :: s) old then new ++ (c :: s).drop old.length
      else c :: stringsReplace1 s old new

/-- The call `strings.Split(s, sep)` for a separator of one character. -/
def stringsSplit (sep : Char) : List Char → List (List Char)
  | [] => [[]]
  | c :: s =>
      if c = sep then [] :: stringsSplit sep s
      else
        match stringsSplit sep s with
        | [] => [[c]]
        | p :: ps => (c :: p) :: ps

/-- The placeholder of a topic pattern. -/
def devicePlaceholder : List Char := "\x7bDEVICE\x7d".toList

/-- The class `[\w\d\-]` of the device group. -/
def isDeviceChar (c : Char) : Bool :=
  c.isAlphanum || c == '_' || c == '-'

/-- The expression compiled by `configureTopics`:
`QuoteMeta(before)` then the group `([\w\d\-]+)` then `QuoteMeta(after)`. -/
structure topicRegexp where
  before : List Char
  after : List Char
  deriving DecidableEq

/-- The group lengths tried at one position, longest first: the group is greedy
and gives characters back until the rest of the expression matches. -/
def groupAt (re : topicRegexp) (rest : List Char) : Nat → Option (List Char)
  | 0 => none
  | n + 1 =>
      if startsWith (rest.drop (n + 1)) re.after then some (rest.take (n + 1))
      else groupAt re rest n

/-- A match of the expression starting at the head of `s`: the text of the group. -/
def matchHere (re : topicRegexp) (s : List Char) : Option (List Char) :=
  if startsWith s re.before then
    let rest := s.drop re.before.length
    groupAt re rest (rest.takeWhile isDeviceChar).length
  else none

/-- The method `Regexp.FindStringSubmatch`: the leftmost match, as the matched
text followed by the text of the group, or `nil`. -/
def FindStringSubmatch (re : topicRegexp) : List Char → List (List Char)
  | [] =>
      match matchHere re [] with
      | some g => [re.before ++ g ++ re.after, g]
      | none => []
  | c :: s =>
      match matchHere re (c :: s) with
      | some g => [re.before ++ g ++ re.after, g]
      | none => FindStringSubmatch re s

/-- The struct `config.MQTTMapping`: source path to metric or metadata name. -/
structure MQTTMapping where
  Metrics : List (String × String)
  Metadata : List (String × String)
  deriving DecidableEq

/-- The struct `topicDetails`. -/
structure topicDetails where
  tester : topicRegexp
  mappings : MQTTMapping
  deriving DecidableEq

/-- The struct `Consumer`: the topic table and the device registry. `subscribed`
records the topics passed to `client.Subscribe`. -/
structure Consumer where
  manager : Manager
  topics : List (List Char × topicDetails)
  subscribed : List (List Char)

/-- The body of the loop of `configureTopics` for one configured topic;
`Except.error` is the message printed before `os.Exit(1)`. The expression is
built from quoted text and the fixed group, so `regexp.Compile` accepts it (the
size limit of package `regexp` on huge expressions is left out). -/
def configureTopic (c : Consumer) (topic : List Char) (mapping : MQTTMapping) :
    Except String Consumer :=
  if stringsContains topic ['#'] then .error "topic wild cards are not supported"
  else if !stringsContains topic devicePlaceholder then .error "Missing DEVICE from tpoic"
  else
    let formattedTopic := stringsReplace1 topic devicePlaceholder ['#']
    let parts := stringsSplit '#' formattedTopic
    let before := parts.headD []
    let after := if parts.length > 1 then parts.getD 1 [] else []
    .ok { c with
          topics := mapSet c.topics topic { tester := ⟨before, after⟩, mappings := mapping },
          subscribed := c.subscribed ++ [before ++ ['#']] }

/-- The method `configureTopics` over the configured topic table. -/
def Consumer.configureTopics (c : Consumer) :
    List (List Char × MQTTMapping) → Except String Consumer
  | [] => .ok c
  | (topic, mapping) :: rest =>
      match configureTopic c topic mapping with
      | .error e => .error e
      | .ok c1 => Consumer.configureTopics c1 rest

/-- The first loop of `consumeFunc`: the submatches of the first tester, in
iteration order, that matches the topic of the message; the submatches of the
last tester tried when none does. -/
def firstMatch (msgTopic : List Char) :
    List (List Char × topicDetails) → List (List Char) → List (List Char)
  | [], acc => acc
  | (_, details) :: rest, _ =>
      let found := FindStringSubmatch details.tester msgTopic
      if found.length = 2 then found else firstMatch msgTopic rest found

/-- The result of `gjson.Get` on the message body for a path that exists: its
`Float()` and its `String()`. -/
structure gjsonResult where
  float : F64
  text : String

/-- The loops of `consumeFunc` that fill `updates`: one entry for each mapped
path present in the body. -/
def collect {α : Type} (body : String → Option gjsonResult) (read : gjsonResult → α)
    (mapping : List (String × String)) : List (String × α) :=
  mapping.foldl
    (fun acc km =>
      match body km.1 with
      | some r => mapSet acc km.2 (read r)
      | none => acc)
    []

/-- The method `consumeFunc` for a message with topic `msgTopic` whose body
answers `gjson.Get` by `body`, handled at instant `now`. `Except.error` is the
run-time panic of Go. -/
def Consumer.consumeFunc (c : Consumer) (msgTopic : List Char)
    (body : String → Option gjsonResult) (now : Nat) : Except String Consumer :=
  let found := firstMatch msgTopic c.topics []
  if found.length ≠ 2 then .ok c
  else
    let device := found.getD 1 []
    let matchedTopic := stringsReplace1 msgTopic device devicePlaceholder
    match mapGet c.topics matchedTopic with
    | none => .error "invalid memory address or nil pointer dereference"
    | some details =>
        let updates : Updates :=
          { Metrics := collect body gjsonResult.float details.mappings.Metrics,
            Metadata := collect body gjsonResult.text details.mappings.Metadata }
        if updates.Metrics.length > 0 ∨ updates.Metadata.length > 0 then
          .ok { c with manager := (c.manager.Update (String.mk device) updates now).manager }
        else .ok c

/-- The number of occurrences of the placeholder in a topic (`strings.Count`;
two occurrences cannot overlap), by which the specification words its condition. -/
def placeholderCount : List Char → Nat
  | [] => 0
  | c :: s => (if startsWith (c :: s) devicePlaceholder then 1 else 0) + placeholderCount s
/-! ## Theorems -/

/-! ### The aggregated metric -/

theorem since_lt_iff (now t : Nat) (w : Int) (hw0 : minDuration < w) (hw : w ≤ maxDuration) :
    since now t < w ↔ (now : Int) - (t : Int) < w := by
  unfold since
  unfold minDuration at hw0
  unfold maxDuration at hw
  simp only [maxDuration, minDuration]
  split_ifs <;> omega

theorem since_gt_iff (now t : Nat) (w : Int) (hw0 : minDuration ≤ w) (hw : w < maxDuration) :
    since now t > w ↔ (now : Int) - (t : Int) > w := by
  unfold since
  unfold minDuration at hw0
  unfold maxDuration at hw
  simp only [maxDuration, minDuration]
  split_ifs <;> omega

theorem F64.ofRat_zero : F64.ofRat 0 = F64.fin 0 := by
  simp [F64.ofRat]

/-- The window accumulators reached by the loop: the running sums and counts
after visiting the samples, in iteration order. -/
theorem foldl_marshalStep (now : Nat) (l : List (Nat × F64)) (st : marshalLoop) :
    (l.foldl (marshalStep now) st).avg10s.sum
        = (inWindow l now (10 * second)).foldl F64.add st.avg10s.sum
    ∧ (l.foldl (marshalStep now) st).avg10s.count
        = st.avg10s.count + (inWindow l now (10 * second)).length
    ∧ (l.foldl (marshalStep now) st).avg30s.sum
        = (inWindow l now (30 * second)).foldl F64.add st.avg30s.sum
    ∧ (l.foldl (marshalStep now) st).avg30s.count
        = st.avg30s.count + (inWindow l now (30 * second)).length := by
  induction l generalizing st with
  | nil => simp [inWindow]
  | cons p l ih =>
    have h10 : since now p.1 < 10 * second ↔ (now : Int) - (p.1 : Int) < 10 * second :=
      since_lt_iff now p.1 _ (by decide) (by decide)
    have h30 : since now p.1 < 30 * second ↔ (now : Int) - (p.1 : Int) < 30 * second :=
      since_lt_iff now p.1 _ (by decide) (by decide)
    simp only [List.foldl_cons]
    obtain ⟨a1, a2, a3, a4⟩ := ih (marshalStep now st p)
    rw [a1, a2, a3, a4]
    refine ⟨?_, ?_, ?_, ?_⟩
    · by_cases h : (now : Int) - (p.1 : Int) < 10 * second
      · simp [marshalStep, inWindow, List.filter_cons, h, h10.2 h]
      · simp [marshalStep, inWindow, List.filter_cons, h, mt h10.1 h]
    · by_cases h : (now : Int) - (p.1 : Int) < 10 * second
      · simp [marshalStep, inWindow, List.filter_cons, h, h10.2 h]; omega
      · simp [marshalStep, inWindow, List.filter_cons, h, mt h10.1 h]
    · by_cases h : (now : Int) - (p.1 : Int) < 30 * second
      · simp [marshalStep, inWindow, List.filter_cons, h, h30.2 h]
      · simp [marshalStep, inWindow, List.filter_cons, h, mt h30.1 h]
    · by_cases h : (now : Int) - (p.1 : Int) < 30 * second
      · simp [marshalStep, inWindow, List.filter_cons, h, h30.2 h]; omega
      · simp [marshalStep, inWindow, List.filter_cons, h, mt h30.1 h]

theorem foldl_marshalStep_mostRecent (now : Nat) (l : List (Nat × F64)) (st : marshalLoop) :
    (l.foldl (marshalStep now) st).mostRecentTime
      = match maxTimestamp (mapKeys l) with
        | none => st.mostRecentTime
        | some m => max st.mostRecentTime m := by
  induction l generalizing st with
  | nil => simp [mapKeys, maxTimestamp]
  | cons p l ih =>
    simp only [List.foldl_cons, mapKeys, List.map_cons, maxTimestamp]
    rw [ih]
    simp only [mapKeys]
    cases hm : maxTimestamp (List.map Prod.fst l) with
    | none =>
      simp only [marshalStep]
      split_ifs with h
      · exact (max_eq_right (le_of_lt h)).symm
      · exact (max_eq_left (not_lt.1 h)).symm
    | some m =>
      simp only [marshalStep]
      split_ifs with h
      · rw [← max_assoc, max_eq_right (le_of_lt h)]
      · rw [← max_assoc, max_eq_left (not_lt.1 h)]

theorem maxTimestamp_mem (ts : List Nat) (m : Nat) (h : maxTimestamp ts = some m) :
    m ∈ ts ∧ ∀ t ∈ ts, t ≤ m := by
  induction ts generalizing m with
  | nil => simp [maxTimestamp] at h
  | cons t ts ih =>
    simp only [maxTimestamp] at h
    cases hm : maxTimestamp ts with
    | none =>
      rw [hm] at h
      simp only [Option.some.injEq] at h
      subst h
      cases ts with
      | nil => simp
      | cons u us =>
        simp only [maxTimestamp] at hm
        cases hu : maxTimestamp us <;> rw [hu] at hm <;> simp at hm
    | some k =>
      rw [hm] at h
      simp only [Option.some.injEq] at h
      subst h
      obtain ⟨hk, hle⟩ := ih k hm
      constructor
      · rcases le_total t k with htk | htk
        · rw [max_eq_right htk]; exact List.mem_cons_of_mem _ hk
        · rw [max_eq_left htk]; exact List.mem_cons_self _ _
      · intro u hu
        rcases List.mem_cons.1 hu with rfl | hu
        · exact le_max_left _ _
        · exact le_trans (hle u hu) (le_max_right _ _)

theorem maxTimestamp_eq_none (ts : List Nat) : maxTimestamp ts = none ↔ ts = [] := by
  cases ts with
  | nil => simp [maxTimestamp]
  | cons t ts =>
    simp only [maxTimestamp]
    cases maxTimestamp ts <;> simp

theorem mapGet_mem {κ α : Type} [DecidableEq κ] (m : List (κ × α)) (k : κ) (v : α)
    (h : mapGet m k = some v) : (k, v) ∈ m := by
  induction m with
  | nil => simp [mapGet] at h
  | cons p m ih =>
    obtain ⟨k1, v1⟩ := p
    simp only [mapGet] at h
    split_ifs at h with hk
    · simp only [Option.some.injEq] at h
      subst hk; subst h
      exact List.mem_cons_self _ _
    · exact List.mem_cons_of_mem _ (ih h)

/-- The three numbers of the struct in terms of the sample set: the lookup at
the maximum timestamp, and `average.result` on the sum and count of each window. -/
theorem snapshot_eq (a : AggregatedMetric) (now : Nat) :
    (a.snapshot now).Last = specLast a.values
    ∧ (a.snapshot now).Avg10s
        = average.result ⟨F64.sum (inWindow a.values now (10 * second)),
            (inWindow a.values now (10 * second)).length⟩
    ∧ (a.snapshot now).Avg30s
        = average.result ⟨F64.sum (inWindow a.values now (30 * second)),
            (inWindow a.values now (30 * second)).length⟩ := by
  unfold AggregatedMetric.snapshot
  obtain ⟨a1, a2, a3, a4⟩ := foldl_marshalStep now a.values
    { mostRecentTime := 0, avg10s := ⟨F64.fin 0, 0⟩, avg30s := ⟨F64.fin 0, 0⟩ }
  have hm := foldl_marshalStep_mostRecent now a.values
    { mostRecentTime := 0, avg10s := ⟨F64.fin 0, 0⟩, avg30s := ⟨F64.fin 0, 0⟩ }
  simp only [Nat.zero_add] at a1 a2 a3 a4 hm
  refine ⟨?_, ?_, ?_⟩
  · simp only
    rw [hm]
    unfold specLast
    cases hk : maxTimestamp (mapKeys a.values) with
    | none =>
      have : a.values = [] := by
        have := (maxTimestamp_eq_none _).1 hk
        simpa [mapKeys] using this
      simp [this, mapGet]
    | some m =>
      simp only
      rw [max_eq_right (Nat.zero_le _)]
  · simp only
    rw [show (List.foldl (marshalStep now)
        { mostRecentTime := 0, avg10s := ⟨F64.fin 0, 0⟩, avg30s := ⟨F64.fin 0, 0⟩ }
        a.values).avg10s = ⟨F64.sum (inWindow a.values now (10 * second)),
          (inWindow a.values now (10 * second)).length⟩ from by
      unfold F64.sum
      rw [← a1, ← a2]]
  · simp only
    rw [show (List.foldl (marshalStep now)
        { mostRecentTime := 0, avg10s := ⟨F64.fin 0, 0⟩, avg30s := ⟨F64.fin 0, 0⟩ }
        a.values).avg30s = ⟨F64.sum (inWindow a.values now (30 * second)),
          (inWindow a.values now (30 * second)).length⟩ from by
      unfold F64.sum
      rw [← a3, ← a4]]

theorem F64.roundHalfAway_near (y : ℚ) :
    |y - (F64.roundHalfAway y : ℚ)| ≤ 1 / 2
    ∧ (|y - (F64.roundHalfAway y : ℚ)| = 1 / 2 → |y| < |(F64.roundHalfAway y : ℚ)|) := by
  unfold F64.roundHalfAway
  by_cases h : 0 ≤ y
  · simp only [h, if_true]
    have h1 : ((⌊y + 1 / 2⌋ : ℤ) : ℚ) ≤ y + 1 / 2 := Int.floor_le _
    have h2 : y + 1 / 2 < ((⌊y + 1 / 2⌋ : ℤ) : ℚ) + 1 := Int.lt_floor_add_one _
    constructor
    · rw [abs_le]
      constructor <;> linarith
    · intro ht
      have hk : ((⌊y + 1 / 2⌋ : ℤ) : ℚ) = y + 1 / 2 := by
        rcases abs_eq (by norm_num : (0 : ℚ) ≤ 1 / 2) |>.1 ht with e | e
        · linarith
        · linarith
      rw [hk, abs_of_nonneg h, abs_of_nonneg (by linarith)]
      linarith
  · simp only [h, if_false]
    have hy : y < 0 := not_le.1 h
    have h1 : ((⌊-y + 1 / 2⌋ : ℤ) : ℚ) ≤ -y + 1 / 2 := Int.floor_le _
    have h2 : -y + 1 / 2 < ((⌊-y + 1 / 2⌋ : ℤ) : ℚ) + 1 := Int.lt_floor_add_one _
    push_cast
    constructor
    · rw [abs_le]
      constructor <;> linarith
    · intro ht
      have hk : ((⌊-y + 1 / 2⌋ : ℤ) : ℚ) = -y + 1 / 2 := by
        rcases abs_eq (by norm_num : (0 : ℚ) ≤ 1 / 2) |>.1 ht with e | e
        · linarith
        · linarith
      rw [hk, abs_of_neg hy, abs_of_neg (by linarith)]
      linarith

theorem nearest_unique (y : ℚ) (k k2 : ℤ)
    (h1 : |y - k| ≤ 1 / 2) (t1 : |y - k| = 1 / 2 → |y| < |(k : ℚ)|)
    (h2 : |y - k2| ≤ 1 / 2) (t2 : |y - k2| = 1 / 2 → |y| < |(k2 : ℚ)|) : k = k2 := by
  have key : ∀ (a b : ℤ), |y - a| ≤ 1 / 2 → (|y - a| = 1 / 2 → |y| < |(a : ℚ)|) →
      |y - b| ≤ 1 / 2 → (|y - b| = 1 / 2 → |y| < |(b : ℚ)|) → ¬ a < b := by
    intro a b ha ta hb tb hab
    have hab1 : (a : ℚ) + 1 ≤ b := by exact_mod_cast hab
    rw [abs_le] at ha hb
    have hy : y = a + 1 / 2 := by linarith [ha.1, ha.2, hb.1, hb.2]
    have hb2 : (b : ℚ) = a + 1 := by linarith [ha.1, ha.2, hb.1, hb.2]
    have ea : |y - a| = 1 / 2 := by rw [hy]; norm_num
    have eb : |y - b| = 1 / 2 := by
      rw [hy, hb2]
      rw [show (a : ℚ) + 1 / 2 - (a + 1) = -(1 / 2) by ring, abs_neg]
      norm_num
    have la := ta ea
    have lb := tb eb
    rcases le_or_lt 0 a with hpos | hneg
    · have hpos2 : (0 : ℚ) ≤ a := by exact_mod_cast hpos
      rw [hy, abs_of_nonneg (by linarith), abs_of_nonneg hpos2] at la
      linarith
    · have hneg1 : a ≤ -1 := by omega
      have hneg2 : (a : ℚ) ≤ -1 := by exact_mod_cast hneg1
      rw [hy, hb2, abs_of_neg (by linarith), abs_of_nonpos (by linarith)] at lb
      linarith
  rcases lt_trichotomy k k2 with h | h | h
  · exact absurd h (key k k2 h1 t1 h2 t2)
  · exact h
  · exact absurd h (key k2 k h2 t2 h1 t1)

theorem IsRounded2_round2 (x : F64) : IsRounded2 x (F64.round2 x) := by
  unfold IsRounded2 F64.round2
  cases x with
  | nonFinite => simp [F64.mulBy, F64.mathRound, F64.divBy]
  | fin q =>
    simp only [F64.mulBy]
    cases hy : F64.ofRat (q * 100) with
    | nonFinite => simp [F64.mathRound, F64.divBy]
    | fin y =>
      simp only [F64.mathRound, F64.divBy]
      refine ⟨F64.roundHalfAway y, (F64.roundHalfAway_near y).1,
        (F64.roundHalfAway_near y).2, ?_⟩
      norm_num

theorem IsRounded2_unique (x r r2 : F64) (h1 : IsRounded2 x r) (h2 : IsRounded2 x r2) :
    r = r2 := by
  unfold IsRounded2 at h1 h2
  cases x with
  | nonFinite =>
    simp only at h1 h2
    rw [h1, h2]
  | fin q =>
    simp only at h1 h2
    cases hy : F64.ofRat (q * 100) with
    | nonFinite =>
      rw [hy] at h1 h2
      simp only at h1 h2
      rw [h1, h2]
    | fin y =>
      rw [hy] at h1 h2
      simp only at h1 h2
      obtain ⟨k, a1, a2, a3⟩ := h1
      obtain ⟨k2, b1, b2, b3⟩ := h2
      have := nearest_unique y k k2 a1 a2 b1 b2
      subst this
      rw [a3, b3]

theorem specMean_zero (xs : List F64) (hne : xs ≠ []) (hs : F64.sum xs = F64.fin 0) :
    specMean xs = F64.fin 0 := by
  unfold specMean F64.divCount
  rw [hs]
  have hlen : ((xs.length : ℕ) : ℚ) ≠ 0 := by
    have : xs.length ≠ 0 := fun h => hne (List.length_eq_zero.1 h)
    exact_mod_cast this
  simp [F64.divBy, hlen, F64.ofRat_zero]

theorem IsRounded2_zero : IsRounded2 (F64.fin 0) (F64.fin 0) := by
  unfold IsRounded2
  simp only [zero_mul, F64.ofRat_zero]
  refine ⟨0, by norm_num, by norm_num, ?_⟩
  simp [F64.ofRat_zero]

/-- The method `average.result`, applied to the sum and count of a window, gives
the rolling average of the specification, and nothing else is one. -/
theorem average_result_isWindowAvg (xs : List F64) (r : F64) :
    IsWindowAvg xs r ↔ r = average.result ⟨F64.sum xs, xs.length⟩ := by
  have hcode : IsWindowAvg xs (average.result ⟨F64.sum xs, xs.length⟩) := by
    unfold IsWindowAvg average.result
    by_cases hne : xs = []
    · left
      subst hne
      simp
    · right
      refine ⟨hne, ?_⟩
      have hlen : xs.length ≠ 0 := fun h => hne (List.length_eq_zero.1 h)
      by_cases hz : (F64.sum xs).isZero = true
      · have hs : F64.sum xs = F64.fin 0 := by
          cases hsum : F64.sum xs with
          | nonFinite => rw [hsum] at hz; simp [F64.isZero] at hz
          | fin q =>
            rw [hsum] at hz
            simp only [F64.isZero, decide_eq_true_eq] at hz
            rw [hz]
        simp only [hz, Bool.true_or, if_true]
        rw [specMean_zero xs hne hs]
        exact IsRounded2_zero
      · simp only [hz, hlen, Bool.false_or, beq_iff_eq, if_false]
        exact IsRounded2_round2 _
  constructor
  · intro h
    unfold IsWindowAvg at h hcode
    rcases h with ⟨h1, h2⟩ | ⟨h1, h2⟩
    · rcases hcode with ⟨_, c2⟩ | ⟨c1, _⟩
      · rw [h2, c2]
      · exact absurd h1 c1
    · rcases hcode with ⟨c1, _⟩ | ⟨_, c2⟩
      · exact absurd c1 h1
      · exact IsRounded2_unique _ _ _ h2 c2
  · intro h
    rw [h]
    exact hcode

theorem marshalJSON_eq (a : AggregatedMetric) (now : Nat) :
    ((a.snapshot now).encodable = true → (a.MarshalJSON now).2 = .ok (a.snapshot now))
    ∧ ((a.snapshot now).encodable = false →
        (a.MarshalJSON now).2 = .error "json: unsupported value") := by
  unfold AggregatedMetric.MarshalJSON jsonMarshalSnapshot
  constructor <;> intro h <;> simp [h]

/-- C1 counterexample: the sample set holding the one finite sample 1e307 has no
snapshot, MarshalJSON returns an error (the product by 100 overflows); and for
the one sample 2.675 the 10s average is the float64 2.68, more than half a
hundredth away from the mean, whose value rounded to 2 decimal places is 2.67. -/
theorem marshalJSON_not_exact_rounded_mean :
    (F64.ofRat ((10 ^ 307 : Nat) : ℚ)).isFinite = true
    ∧ returns ((AggregatedMetric.mk [(0, F64.ofRat ((10 ^ 307 : Nat) : ℚ))]
        true).MarshalJSON 1).2 = false
    ∧ F64.ofRat (mkRat 2675 1000) = F64.fin (mkRat 3011782250804019 (2 ^ 50))
    ∧ ((AggregatedMetric.mk [(0, F64.ofRat (mkRat 2675 1000))] true).snapshot 1).Avg10s
        = F64.fin (mkRat 6034823500676465 (2 ^ 51))
    ∧ F64.ofRat (mkRat 268 100) = F64.fin (mkRat 6034823500676465 (2 ^ 51))
    ∧ (1 : ℚ) / 200 < |mkRat 3011782250804019 (2 ^ 50) - mkRat 6034823500676465 (2 ^ 51)|
    ∧ |mkRat 3011782250804019 (2 ^ 50) - mkRat 267 100| < (1 : ℚ) / 200 := by
  refine ⟨?_, ?_, ?_, ?_, ?_, ?_, ?_⟩ <;> decide!

/-- C1 amended: at every instant and for every sample set, MarshalJSON leaves the
sample set unchanged and serialises the struct whose last is the value at the
maximum timestamp (0 for the empty set) and whose 10s and 30s are the rolling
averages in float64 arithmetic over the samples of age strictly below 10 s and
30 s: 0 for an empty window, otherwise the float64 mean rounded to 2 decimals by
float64 operations, and no other value; it returns the encoding of that struct
when its three numbers are finite and an error otherwise; the empty set gives
0, 0, 0; samples 1, 2, 3 younger than 5 s give both averages 2 and last = the
value of the latest one. -/
theorem marshalJSON_refines_spec (a : AggregatedMetric) (now : Nat) :
    (a.MarshalJSON now).1 = a
    ∧ (a.snapshot now).Last = specLast a.values
    ∧ (∀ r, IsWindowAvg (inWindow a.values now (10 * second)) r ↔ r = (a.snapshot now).Avg10s)
    ∧ (∀ r, IsWindowAvg (inWindow a.values now (30 * second)) r ↔ r = (a.snapshot now).Avg30s)
    ∧ ((a.snapshot now).encodable = true → (a.MarshalJSON now).2 = .ok (a.snapshot now))
    ∧ ((a.snapshot now).encodable = false →
        (a.MarshalJSON now).2 = .error "json: unsupported value")
    ∧ (NewAggregatedMetric.MarshalJSON now).2
        = .ok { Last := F64.fin 0, Avg10s := F64.fin 0, Avg30s := F64.fin 0 }
    ∧ (∀ t1 t2 t3 : Nat, t1 < t2 → t2 < t3 → (now : Int) - (t1 : Int) < 5 * second →
        ((((NewAggregatedMetric.Update t1 (F64.fin 1)).Update t2 (F64.fin 2)).Update t3
            (F64.fin 3)).MarshalJSON now).2
          = .ok { Last := F64.fin 3, Avg10s := F64.fin 2, Avg30s := F64.fin 2 }) := by
  obtain ⟨hl, h10, h30⟩ := snapshot_eq a now
  refine ⟨rfl, hl, ?_, ?_, (marshalJSON_eq a now).1, (marshalJSON_eq a now).2, ?_, ?_⟩
  · intro r
    rw [h10]
    exact average_result_isWindowAvg _ r
  · intro r
    rw [h30]
    exact average_result_isWindowAvg _ r
  · simp [AggregatedMetric.MarshalJSON, NewAggregatedMetric, AggregatedMetric.snapshot,
      mapGet, average.result, F64.isZero, jsonMarshalSnapshot, Snapshot.encodable,
      F64.isFinite]
  · intro t1 t2 t3 h12 h23 hage
    have e12 : ¬ t1 = t2 := by omega
    have e13 : ¬ t1 = t3 := by omega
    have e23 : ¬ t2 = t3 := by omega
    have hv : (((NewAggregatedMetric.Update t1 (F64.fin 1)).Update t2 (F64.fin 2)).Update t3
        (F64.fin 3)).values = [(t1, F64.fin 1), (t2, F64.fin 2), (t3, F64.fin 3)] := by
      simp [NewAggregatedMetric, AggregatedMetric.Update, mapSet, e12, e13, e23]
    obtain ⟨sl, s10, s30⟩ := snapshot_eq
      (((NewAggregatedMetric.Update t1 (F64.fin 1)).Update t2 (F64.fin 2)).Update t3
        (F64.fin 3)) now
    rw [hv] at sl s10 s30
    have hm : maxTimestamp [t1, t2, t3] = some t3 := by
      simp only [maxTimestamp]
      rw [max_eq_right (le_of_lt h23), max_eq_right (le_of_lt (lt_trans h12 h23))]
    have hlast : specLast [(t1, F64.fin 1), (t2, F64.fin 2), (t3, F64.fin 3)] = F64.fin 3 := by
      simp [specLast, mapKeys, hm, mapGet, e13, e23]
    have hsec : second = 1000000000 := rfl
    have hw : ∀ w : Int, 10 * second ≤ w →
        inWindow [(t1, F64.fin 1), (t2, F64.fin 2), (t3, F64.fin 3)] now w
          = [F64.fin 1, F64.fin 2, F64.fin 3] := by
      intro w hw
      have c1 : (now : Int) - (t1 : Int) < w := by omega
      have c2 : (now : Int) - (t2 : Int) < w := by omega
      have c3 : (now : Int) - (t3 : Int) < w := by omega
      simp [inWindow, List.filter_cons, c1, c2, c3]
    have havg : average.result ⟨F64.sum [F64.fin 1, F64.fin 2, F64.fin 3],
        [F64.fin 1, F64.fin 2, F64.fin 3].length⟩ = F64.fin 2 := by decide!
    rw [hw (10 * second) le_rfl, havg] at s10
    rw [hw (30 * second) (by omega), havg] at s30
    rw [hlast] at sl
    have hsnap : ((((NewAggregatedMetric.Update t1 (F64.fin 1)).Update t2 (F64.fin 2)).Update t3
        (F64.fin 3)).snapshot now)
          = { Last := F64.fin 3, Avg10s := F64.fin 2, Avg30s := F64.fin 2 } := by
      cases hs : ((((NewAggregatedMetric.Update t1 (F64.fin 1)).Update t2 (F64.fin 2)).Update t3
        (F64.fin 3)).snapshot now) with
      | mk l x y =>
        rw [hs] at sl s10 s30
        simp only at sl s10 s30
        rw [sl, s10, s30]
    simp only [AggregatedMetric.MarshalJSON, hsnap, jsonMarshalSnapshot, Snapshot.encodable,
      F64.isFinite, Bool.and_self, if_true]

/-! ### The broadcast hub -/

theorem swapRemove_perm (l : List Nat) (c : Nat) (h : c ∈ l) :
    (swapRemove l (l.indexOf c)).Perm (l.erase c) := by
  induction l with
  | nil => simp at h
  | cons x l ih =>
    by_cases hx : x = c
    · subst hx
      rcases List.eq_nil_or_concat l with hl | ⟨l1, z, hl⟩
      · subst hl
        simp [swapRemove]
      · rw [List.concat_eq_append] at hl
        subst hl
        have h1 : (x :: (l1 ++ [z])).getLast? = some z := by
          rw [show x :: (l1 ++ [z]) = (x :: l1) ++ [z] from rfl, List.getLast?_append]
          simp
        simp only [swapRemove, h1, List.indexOf_cons_self, List.set_cons_zero,
          List.erase_cons_head]
        rw [show z :: (l1 ++ [z]) = (z :: l1) ++ [z] from rfl, List.dropLast_concat]
        exact (List.perm_append_singleton z l1).symm
    · have hc : c ∈ l := by
        rcases List.mem_cons.1 h with h | h
        · exact absurd h.symm hx
        · exact h
      have hne : l ≠ [] := List.ne_nil_of_mem hc
      obtain ⟨z, hz⟩ : ∃ z, l.getLast? = some z := by
        cases hl : l.getLast? with
        | none => exact absurd (List.getLast?_eq_none_iff.1 hl) hne
        | some z => exact ⟨z, rfl⟩
      have h1 : (x :: l).getLast? = some z := by
        cases l with
        | nil => exact absurd rfl hne
        | cons y l => simpa [List.getLast?_cons_cons] using hz
      have hidx : (x :: l).indexOf c = l.indexOf c + 1 := by
        rw [List.indexOf_cons_ne _ hx]
      have hset : (l.set (l.indexOf c) z) ≠ [] := by
        intro hnil
        have := congrArg List.length hnil
        simp at this
        exact hne this
      have ih2 := ih hc
      simp only [swapRemove, hz] at ih2
      simp only [swapRemove, h1, hidx, List.set_cons_succ]
      rw [List.dropLast_cons_of_ne_nil hset, List.erase_cons_tail (by simpa using hx)]
      exact List.Perm.cons x ih2

theorem swapRemove_mem (l : List Nat) (c : Nat) (h : c ∈ l) (hn : l.Nodup) (x : Nat) :
    x ∈ swapRemove l (l.indexOf c) ↔ x ∈ l ∧ x ≠ c := by
  rw [(swapRemove_perm l c h).mem_iff, hn.mem_erase_iff]
  exact and_comm

theorem swapRemove_nodup (l : List Nat) (c : Nat) (h : c ∈ l) (hn : l.Nodup) :
    (swapRemove l (l.indexOf c)).Nodup :=
  (swapRemove_perm l c h).nodup_iff.2 (hn.erase c)

theorem swapRemove_length (l : List Nat) (c : Nat) (h : c ∈ l) :
    (swapRemove l (l.indexOf c)).length + 1 = l.length := by
  rw [(swapRemove_perm l c h).length_eq, List.length_erase_of_mem h]
  have : 0 < l.length := List.length_pos_of_mem h
  omega

theorem Server.inv_New (T : Type) : (Server.New T).Inv := by
  constructor <;> simp [Server.New]

theorem Server.serve_of_stopped {T : Type} (s : Server T) (m : Msg T)
    (h : s.stopped = true) : s.serve m = s := by
  simp [Server.serve, h]

theorem Server.serve_of_running {T : Type} (s : Server T) (m : Msg T)
    (h : s.stopped = false) :
    s.serve m =
      match m with
      | .shutdown => s.closeAll
      | .subscribe => { s with listeners := s.listeners ++ [s.made], made := s.made + 1 }
      | .unsubscribe c =>
          if c ∈ s.listeners then
            { s with listeners := swapRemove s.listeners (s.listeners.indexOf c),
                     closed := s.closed ++ [c] }
          else s
      | .publish val =>
          { s with delivered := s.delivered ++ s.listeners.map (fun c => (c, val)) }
      | .sourceClosed => s.closeAll := by
  simp [Server.serve, h]

theorem Server.inv_serve {T : Type} (s : Server T) (m : Msg T) (h : s.Inv) :
    (s.serve m).Inv := by
  by_cases hs : s.stopped = true
  · rw [Server.serve_of_stopped s m hs]; exact h
  · have hrun : s.stopped = false := by simpa using hs
    rw [Server.serve_of_running s m hrun]
    have hopen := h.running hrun
    have hall : (Server.closeAll s).Inv := by
      constructor
      · exact h.nodup
      · exact h.lt
      · simp only [Server.closeAll]
        rw [List.nodup_append]
        refine ⟨h.closedNodup, h.nodup, ?_⟩
        intro c hc hl
        exact hopen c hl hc
      · intro c hc
        simp only [Server.closeAll, List.mem_append] at hc
        rcases hc with hc | hc
        · exact h.closedLt c hc
        · exact h.lt c hc
      · intro c hc hl
        simp only [Server.closeAll, List.mem_append]
        exact Or.inl (h.issued c hc hl)
      · intro hst
        simp [Server.closeAll] at hst
    cases m with
    | shutdown => exact hall
    | sourceClosed => exact hall
    | subscribe =>
      constructor
      · simp only
        rw [List.nodup_append]
        refine ⟨h.nodup, List.nodup_singleton _, ?_⟩
        intro c hc hc2
        have := h.lt c hc
        simp only [List.mem_singleton] at hc2
        omega
      · intro c hc
        simp only [List.mem_append, List.mem_singleton] at hc
        rcases hc with hc | hc
        · have := h.lt c hc
          simp only
          omega
        · simp only
          omega
      · exact h.closedNodup
      · intro c hc
        have := h.closedLt c hc
        simp only
        omega
      · intro c hc hl
        simp only [List.mem_append, List.mem_singleton, not_or] at hl
        simp only at hc
        exact h.issued c (by omega) hl.1
      · intro _ c hc
        simp only [List.mem_append, List.mem_singleton] at hc
        rcases hc with hc | hc
        · exact hopen c hc
        · intro hcl
          have := h.closedLt c hcl
          omega
    | publish val =>
      constructor
      · exact h.nodup
      · exact h.lt
      · exact h.closedNodup
      · exact h.closedLt
      · exact h.issued
      · exact h.running
    | unsubscribe c =>
      by_cases hc : c ∈ s.listeners
      · simp only [hc, if_true]
        constructor
        · exact swapRemove_nodup _ _ hc h.nodup
        · intro x hx
          exact h.lt x ((swapRemove_mem _ _ hc h.nodup x).1 hx).1
        · simp only
          rw [List.nodup_append]
          refine ⟨h.closedNodup, List.nodup_singleton _, ?_⟩
          intro x hx hx2
          simp only [List.mem_singleton] at hx2
          subst hx2
          exact hopen x hc hx
        · intro x hx
          simp only [List.mem_append, List.mem_singleton] at hx
          rcases hx with hx | hx
          · exact h.closedLt x hx
          · subst hx
            exact h.lt x hc
        · intro x hx hl
          simp only [List.mem_append, List.mem_singleton]
          by_cases hxc : x = c
          · exact Or.inr hxc
          · left
            apply h.issued x hx
            intro hxl
            exact hl ((swapRemove_mem _ _ hc h.nodup x).2 ⟨hxl, hxc⟩)
        · intro _ x hx
          have hx2 := (swapRemove_mem _ _ hc h.nodup x).1 hx
          simp only [List.mem_append, List.mem_singleton, not_or]
          exact ⟨hopen x hx2.1, hx2.2⟩
      · simp only [hc, if_false]
        exact h

theorem Server.inv_run {T : Type} (msgs : List (Msg T)) (s : Server T) (h : s.Inv) :
    (s.run msgs).Inv := by
  induction msgs generalizing s with
  | nil => exact h
  | cons m msgs ih => exact ih _ (Server.inv_serve s m h)

theorem Server.deliveredTo_serve {T : Type} (s : Server T) (m : Msg T) (c : Nat)
    (hnd : s.listeners.Nodup) :
    (s.serve m).deliveredTo c
      = s.deliveredTo c ++
          (match m with
           | .publish val => if s.stopped = false ∧ c ∈ s.listeners then [val] else []
           | _ => []) := by
  by_cases hs : s.stopped = true
  · rw [Server.serve_of_stopped s m hs]
    cases m <;> simp [hs]
  · have hrun : s.stopped = false := by simpa using hs
    rw [Server.serve_of_running s m hrun]
    cases m with
    | shutdown => simp [Server.closeAll, Server.deliveredTo]
    | sourceClosed => simp [Server.closeAll, Server.deliveredTo]
    | subscribe => simp [Server.deliveredTo]
    | unsubscribe d =>
      by_cases hd : d ∈ s.listeners <;> simp [hd, Server.deliveredTo]
    | publish val =>
      simp only [Server.deliveredTo, List.filter_append, List.map_append, hrun, true_and]
      congr 1
      revert hnd
      generalize s.listeners = l
      intro hn
      induction l with
      | nil => simp
      | cons x l ih =>
        have hx : x ∉ l := (List.nodup_cons.1 hn).1
        have ih2 := ih (List.nodup_cons.1 hn).2
        by_cases hxc : x = c
        · subst hxc
          simp only [List.map_cons, List.filter_cons, decide_True, if_true,
            List.mem_cons, true_or]
          simp only [hx, if_false] at ih2
          rw [ih2]
        · have hcx : ¬ c = x := fun h => hxc h.symm
          simp only [List.map_cons, List.filter_cons, hxc, decide_False, List.mem_cons,
            hcx, false_or]
          simpa using ih2

theorem Server.closed_mono {T : Type} (s : Server T) (m : Msg T) (c : Nat)
    (h : c ∈ s.closed) : c ∈ (s.serve m).closed := by
  by_cases hs : s.stopped = true
  · rw [Server.serve_of_stopped s m hs]; exact h
  · have hrun : s.stopped = false := by simpa using hs
    rw [Server.serve_of_running s m hrun]
    cases m with
    | shutdown => simp [Server.closeAll, h]
    | sourceClosed => simp [Server.closeAll, h]
    | subscribe => exact h
    | publish val => exact h
    | unsubscribe d =>
      by_cases hd : d ∈ s.listeners
      · simp [hd, h]
      · simp [hd, h]

theorem Server.run_of_stopped {T : Type} (msgs : List (Msg T)) (s : Server T)
    (h : s.stopped = true) : s.run msgs = s := by
  induction msgs with
  | nil => rfl
  | cons m msgs ih =>
    simp only [Server.run, List.foldl_cons, Server.serve_of_stopped s m h]
    exact ih

theorem Server.deliveredTo_closed_serve {T : Type} (s : Server T) (m : Msg T) (c : Nat)
    (h : s.Inv) (hc : c ∈ s.closed) : (s.serve m).deliveredTo c = s.deliveredTo c := by
  rw [Server.deliveredTo_serve s m c h.nodup]
  cases m with
  | publish val =>
    have : ¬ (s.stopped = false ∧ c ∈ s.listeners) := fun hh => h.running hh.1 c hh.2 hc
    simp [this]
  | shutdown => simp
  | sourceClosed => simp
  | subscribe => simp
  | unsubscribe d => simp

theorem Server.deliveredTo_closed_run {T : Type} (msgs : List (Msg T)) (s : Server T)
    (c : Nat) (h : s.Inv) (hc : c ∈ s.closed) :
    (s.run msgs).deliveredTo c = s.deliveredTo c := by
  induction msgs generalizing s with
  | nil => rfl
  | cons m msgs ih =>
    simp only [Server.run, List.foldl_cons]
    have := ih (s.serve m) (Server.inv_serve s m h) (Server.closed_mono s m c hc)
    simp only [Server.run] at this
    rw [this, Server.deliveredTo_closed_serve s m c h hc]

theorem Server.made_serve {T : Type} (s : Server T) (m : Msg T) :
    s.made ≤ (s.serve m).made := by
  by_cases hs : s.stopped = true
  · rw [Server.serve_of_stopped s m hs]
  · have hrun : s.stopped = false := by simpa using hs
    rw [Server.serve_of_running s m hrun]
    cases m with
    | shutdown => simp [Server.closeAll]
    | sourceClosed => simp [Server.closeAll]
    | subscribe => simp
    | publish val => simp
    | unsubscribe d => by_cases hd : d ∈ s.listeners <;> simp [hd]

theorem Server.made_run {T : Type} (msgs : List (Msg T)) (s : Server T) :
    s.made ≤ (s.run msgs).made := by
  induction msgs generalizing s with
  | nil => exact le_refl _
  | cons m msgs ih =>
    simp only [Server.run, List.foldl_cons]
    exact le_trans (Server.made_serve s m) (ih (s.serve m))

theorem Server.made_serve_of_not_subscribe {T : Type} (s : Server T) (m : Msg T)
    (hm : m ≠ .subscribe) : (s.serve m).made = s.made := by
  by_cases hs : s.stopped = true
  · rw [Server.serve_of_stopped s m hs]
  · have hrun : s.stopped = false := by simpa using hs
    rw [Server.serve_of_running s m hrun]
    cases m with
    | shutdown => simp [Server.closeAll]
    | sourceClosed => simp [Server.closeAll]
    | subscribe => exact absurd rfl hm
    | publish val => simp
    | unsubscribe d => by_cases hd : d ∈ s.listeners <;> simp [hd]

/-- The handles returned along a trace are the channels made during it. -/
theorem Server.mem_handles {T : Type} (msgs : List (Msg T)) (s : Server T) (c : Nat) :
    c ∈ s.handles msgs ↔ s.made ≤ c ∧ c < (s.run msgs).made := by
  induction msgs generalizing s with
  | nil =>
    simp only [Server.handles, Server.run, List.foldl_nil, List.not_mem_nil, false_iff]
    omega
  | cons m msgs ih =>
    have hmono := Server.made_run msgs (s.serve m)
    simp only [Server.run, List.foldl_cons] at hmono ⊢
    cases m with
    | subscribe =>
      simp only [Server.handles, List.mem_append]
      rw [ih (s.serve .subscribe)]
      simp only [Server.run]
      by_cases hs : s.stopped = true
      · simp only [hs, if_true, List.not_mem_nil, false_or]
        rw [Server.serve_of_stopped s _ hs]
      · have hrun : s.stopped = false := by simpa using hs
        have hmade : (s.serve (.subscribe : Msg T)).made = s.made + 1 := by
          rw [Server.serve_of_running s _ hrun]
        simp only [hrun, Server.Subscribe, Bool.false_eq_true, if_false, List.mem_singleton]
        constructor
        · rintro (h | h)
          · omega
          · omega
        · intro h
          by_cases hc : c = s.made
          · exact Or.inl hc
          · right; omega
    | shutdown =>
      simp only [Server.handles]
      rw [ih (s.serve .shutdown), Server.made_serve_of_not_subscribe s _ (by simp)]
      rfl
    | sourceClosed =>
      simp only [Server.handles]
      rw [ih (s.serve .sourceClosed), Server.made_serve_of_not_subscribe s _ (by simp)]
      rfl
    | publish val =>
      simp only [Server.handles]
      rw [ih (s.serve (.publish val)), Server.made_serve_of_not_subscribe s _ (by simp)]
      rfl
    | unsubscribe d =>
      simp only [Server.handles]
      rw [ih (s.serve (.unsubscribe d)), Server.made_serve_of_not_subscribe s _ (by simp)]
      rfl

theorem Server.handles_nodup {T : Type} (msgs : List (Msg T)) (s : Server T) :
    (s.handles msgs).Nodup := by
  induction msgs generalizing s with
  | nil => simp [Server.handles]
  | cons m msgs ih =>
    cases m with
    | subscribe =>
      simp only [Server.handles]
      by_cases hs : s.stopped = true
      · simp only [hs, if_true, List.nil_append]
        exact ih _
      · have hrun : s.stopped = false := by simpa using hs
        simp only [hrun, Server.Subscribe, Bool.false_eq_true, if_false, List.singleton_append,
          List.nodup_cons]
        refine ⟨?_, ih _⟩
        intro hmem
        have := ((Server.mem_handles msgs _ s.made).1 hmem).1
        rw [Server.serve_of_running s _ hrun] at this
        simp only at this
        omega
    | shutdown => simpa [Server.handles] using ih (s.serve .shutdown)
    | sourceClosed => simpa [Server.handles] using ih (s.serve .sourceClosed)
    | publish val => simpa [Server.handles] using ih (s.serve (.publish val))
    | unsubscribe d => simpa [Server.handles] using ih (s.serve (.unsubscribe d))

theorem Server.halted_run {T : Type} (msgs : List (Msg T)) (s : Server T)
    (h : s.stopped = true → ∀ c ∈ s.listeners, c ∈ s.closed) :
    (s.run msgs).stopped = true → ∀ c ∈ (s.run msgs).listeners, c ∈ (s.run msgs).closed := by
  induction msgs generalizing s with
  | nil => exact h
  | cons m msgs ih =>
    simp only [Server.run, List.foldl_cons]
    apply ih (s.serve m)
    by_cases hs : s.stopped = true
    · rw [Server.serve_of_stopped s m hs]
      exact h
    · have hrun : s.stopped = false := by simpa using hs
      rw [Server.serve_of_running s m hrun]
      cases m with
      | shutdown =>
        intro _ c hc
        simp only [Server.closeAll, List.mem_append]
        exact Or.inr hc
      | sourceClosed =>
        intro _ c hc
        simp only [Server.closeAll, List.mem_append]
        exact Or.inr hc
      | subscribe =>
        intro hst
        simp [hrun] at hst
      | publish val =>
        intro hst
        simp [hrun] at hst
      | unsubscribe d =>
        intro hst
        by_cases hd : d ∈ s.listeners
        · simp [hd, hrun] at hst
        · simp [hd, hrun] at hst

/-- C5 counterexample: after one Subscribe and then Shutdown, the handle 0 that
Subscribe returned is still in the listener slice (ActiveSubscribers is 1) and
its channel is closed, so it is registered and closed at once; and a publish
sent afterwards writes nothing to this registered feed. -/
theorem hub_after_shutdown_registered_and_closed :
    (Server.New Nat).handles [.subscribe, .shutdown] = [0]
    ∧ ((Server.New Nat).run [.subscribe, .shutdown]).listeners = [0]
    ∧ ((Server.New Nat).run [.subscribe, .shutdown]).closed = [0]
    ∧ ((Server.New Nat).run [.subscribe, .shutdown]).ActiveSubscribers = 1
    ∧ (((Server.New Nat).run [.subscribe, .shutdown]).Publish 7).deliveredTo 0 = [] := by
  refine ⟨?_, ?_, ?_, ?_, ?_⟩ <;> decide

/-- C5 amended: in every state the serve loop reaches from New, the handles that
Subscribe has returned are distinct, they are the only channels registered or
closed, and each is registered or closed; while serve runs none is both, and a
new Subscribe returns a fresh handle and registers it; once serve has returned
every handle is closed, while the registered ones stay in the slice, and no
message changes the hub; no channel is closed twice, shutdown included; while
serve runs a publish sends the payload exactly once to each registered channel
and to no other; nothing is sent to a channel after it was closed; and after
Unsubscribe of a handle nothing is ever sent to it, whatever comes later. -/
theorem hub_feed_lifecycle {T : Type} (msgs : List (Msg T)) :
    ((Server.New T).handles msgs).Nodup
    ∧ (∀ c, c ∈ ((Server.New T).run msgs).listeners ∨ c ∈ ((Server.New T).run msgs).closed →
        c ∈ (Server.New T).handles msgs)
    ∧ (∀ c ∈ (Server.New T).handles msgs,
        c ∈ ((Server.New T).run msgs).listeners ∨ c ∈ ((Server.New T).run msgs).closed)
    ∧ (((Server.New T).run msgs).stopped = false →
        (∀ c ∈ (Server.New T).handles msgs,
          ¬ (c ∈ ((Server.New T).run msgs).listeners ∧ c ∈ ((Server.New T).run msgs).closed))
        ∧ ((Server.New T).run msgs).Subscribe.1 ∉ (Server.New T).handles msgs
        ∧ ((Server.New T).run msgs).Subscribe.1 ∈ ((Server.New T).run msgs).Subscribe.2.listeners
        ∧ (Server.New T).handles (msgs ++ [.subscribe])
            = (Server.New T).handles msgs ++ [((Server.New T).run msgs).Subscribe.1])
    ∧ (((Server.New T).run msgs).stopped = true →
        (∀ c ∈ (Server.New T).handles msgs, c ∈ ((Server.New T).run msgs).closed)
        ∧ ∀ m : Msg T, ((Server.New T).run msgs).serve m = (Server.New T).run msgs)
    ∧ ((Server.New T).run msgs).closed.Nodup
    ∧ ((Server.New T).run msgs).listeners.Nodup
    ∧ (((Server.New T).run msgs).stopped = false → ∀ (val : T) (c : Nat),
        (((Server.New T).run msgs).Publish val).deliveredTo c
          = ((Server.New T).run msgs).deliveredTo c
            ++ (if c ∈ ((Server.New T).run msgs).listeners then [val] else []))
    ∧ (∀ c ∈ ((Server.New T).run msgs).closed, ∀ more : List (Msg T),
        (((Server.New T).run msgs).run more).deliveredTo c
          = ((Server.New T).run msgs).deliveredTo c)
    ∧ (∀ c ∈ (Server.New T).handles msgs, ∀ more : List (Msg T),
        ((((Server.New T).run msgs).Unsubscribe c).run more).deliveredTo c
          = ((Server.New T).run msgs).deliveredTo c) := by
  have hinv : ((Server.New T).run msgs).Inv := Server.inv_run msgs _ (Server.inv_New T)
  have hmem : ∀ c, c ∈ (Server.New T).handles msgs ↔ c < ((Server.New T).run msgs).made := by
    intro c
    rw [Server.mem_handles]
    simp [Server.New]
  have hhalt := Server.halted_run msgs (Server.New T) (by simp [Server.New])
  have happ : ∀ (l : List (Msg T)) (s0 : Server T),
      s0.handles (l ++ [.subscribe])
        = s0.handles l ++ (if (s0.run l).stopped then [] else [(s0.run l).Subscribe.1]) := by
    intro l
    induction l with
    | nil => intro s0; simp [Server.handles, Server.run]
    | cons m l ih =>
      intro s0
      cases m with
      | subscribe =>
        show (if s0.stopped then [] else [s0.Subscribe.1])
            ++ (s0.serve .subscribe).handles (l ++ [.subscribe]) = _
        rw [ih]
        simp only [Server.handles, Server.run, List.foldl_cons, List.append_assoc]
      | shutdown =>
        show (s0.serve .shutdown).handles (l ++ [.subscribe]) = _
        rw [ih]
        simp only [Server.handles, Server.run, List.foldl_cons]
      | sourceClosed =>
        show (s0.serve .sourceClosed).handles (l ++ [.subscribe]) = _
        rw [ih]
        simp only [Server.handles, Server.run, List.foldl_cons]
      | publish val =>
        show (s0.serve (.publish val)).handles (l ++ [.subscribe]) = _
        rw [ih]
        simp only [Server.handles, Server.run, List.foldl_cons]
      | unsubscribe d =>
        show (s0.serve (.unsubscribe d)).handles (l ++ [.subscribe]) = _
        rw [ih]
        simp only [Server.handles, Server.run, List.foldl_cons]
  have happ2 := happ msgs (Server.New T)
  have hnd := Server.handles_nodup msgs (Server.New T)
  generalize (Server.New T).handles (msgs ++ [.subscribe]) = H2 at happ2
  generalize (Server.New T).handles msgs = H at hmem hnd happ2
  generalize (Server.New T).run msgs = s at hinv hmem hhalt happ2
  refine ⟨hnd, ?_, ?_, ?_, ?_, hinv.closedNodup, hinv.nodup, ?_, ?_, ?_⟩
  · rintro c (hc | hc)
    · exact (hmem c).2 (hinv.lt c hc)
    · exact (hmem c).2 (hinv.closedLt c hc)
  · intro c hc
    by_cases hl : c ∈ s.listeners
    · exact Or.inl hl
    · exact Or.inr (hinv.issued c ((hmem c).1 hc) hl)
  · intro hrun
    refine ⟨?_, ?_, ?_, ?_⟩
    · intro c _ hboth
      exact hinv.running hrun c hboth.1 hboth.2
    · intro hin
      have := (hmem _).1 hin
      simp only [Server.Subscribe] at this
      omega
    · simp only [Server.Subscribe]
      rw [Server.serve_of_running s _ hrun]
      simp
    · rw [happ2]
      simp [hrun]
  · intro hst
    refine ⟨?_, ?_⟩
    · intro c hc
      by_cases hl : c ∈ s.listeners
      · exact hhalt hst c hl
      · exact hinv.issued c ((hmem c).1 hc) hl
    · intro m
      exact Server.serve_of_stopped s m hst
  · intro hrun val c
    unfold Server.Publish
    rw [Server.deliveredTo_serve s _ c hinv.nodup]
    simp [hrun]
  · intro c hc more
    exact Server.deliveredTo_closed_run more s c hinv hc
  · intro c hc more
    have hc2 := (hmem c).1 hc
    unfold Server.Unsubscribe
    by_cases hs : s.stopped = true
    · rw [Server.serve_of_stopped s _ hs, Server.run_of_stopped more s hs]
    · have hrun : s.stopped = false := by simpa using hs
      have hcl : c ∈ (s.serve (.unsubscribe c)).closed := by
        rw [Server.serve_of_running s _ hrun]
        by_cases hl : c ∈ s.listeners
        · simp [hl]
        · simp only [hl, if_false]
          exact hinv.issued c hc2 hl
      rw [Server.deliveredTo_closed_run more _ c (Server.inv_serve s _ hinv) hcl,
        Server.deliveredTo_serve s _ c hinv.nodup]
      simp

theorem Server.run_ordered {T : Type} (msgs : List (Msg T)) (s : Server T)
    (removed : List Nat) (hrun : s.stopped = false) (hn : s.listeners.Nodup)
    (hmem : ∀ c, c ∈ s.listeners ↔ c < s.made ∧ c ∉ removed)
    (hlen : s.listeners.length + removed.length = s.made)
    (hrem : ∀ c ∈ removed, c < s.made)
    (ho : orderedTrace msgs s.made removed) :
    (s.run msgs).listeners.length + removed.length + countUnsubscribes msgs
      = s.made + countSubscribes msgs := by
  induction msgs generalizing s removed with
  | nil => simpa [Server.run, countSubscribes, countUnsubscribes] using hlen
  | cons m msgs ih =>
    simp only [Server.run, List.foldl_cons]
    rw [Server.serve_of_running s m hrun]
    cases m with
    | shutdown => exact absurd ho (by simp [orderedTrace])
    | sourceClosed => exact absurd ho (by simp [orderedTrace])
    | publish val =>
      simp only [orderedTrace] at ho
      have := ih { s with delivered := s.delivered ++ s.listeners.map (fun c => (c, val)) }
        removed hrun hn hmem hlen hrem ho
      simpa [Server.run, countSubscribes, countUnsubscribes] using this
    | subscribe =>
      simp only [orderedTrace] at ho
      have := ih { s with listeners := s.listeners ++ [s.made], made := s.made + 1 }
        removed hrun
        (by
          simp only
          rw [List.nodup_append]
          refine ⟨hn, List.nodup_singleton _, ?_⟩
          intro c hc hc2
          simp only [List.mem_singleton] at hc2
          have := ((hmem c).1 hc).1
          omega)
        (by
          intro c
          simp only [List.mem_append, List.mem_singleton, hmem c]
          constructor
          · rintro (⟨h1, h2⟩ | h)
            · exact ⟨by omega, h2⟩
            · subst h
              refine ⟨by omega, ?_⟩
              intro hr
              have := hrem _ hr
              omega
          · rintro ⟨h1, h2⟩
            by_cases hc : c = s.made
            · exact Or.inr hc
            · exact Or.inl ⟨by omega, h2⟩)
        (by simp only [List.length_append, List.length_singleton]; omega)
        (by
          intro c hc
          have := hrem c hc
          simp only
          omega)
        ho
      simp only [Server.run, countSubscribes, countUnsubscribes] at this ⊢
      omega
    | unsubscribe c =>
      simp only [orderedTrace] at ho
      obtain ⟨hc1, hc2, ho⟩ := ho
      have hc : c ∈ s.listeners := (hmem c).2 ⟨hc1, hc2⟩
      simp only [hc, if_true]
      have := ih { s with listeners := swapRemove s.listeners (s.listeners.indexOf c),
                          closed := s.closed ++ [c] }
        (c :: removed) hrun (swapRemove_nodup _ _ hc hn)
        (by
          intro x
          simp only [swapRemove_mem _ _ hc hn x, hmem x, List.mem_cons, not_or]
          tauto)
        (by
          have := swapRemove_length _ _ hc
          simp only [List.length_cons]
          omega)
        (by
          intro x hx
          rcases List.mem_cons.1 hx with rfl | hx
          · exact hc1
          · exact hrem x hx)
        ho
      simp only [Server.run, countSubscribes, countUnsubscribes, List.length_cons] at this ⊢
      omega

/-- C6: after any trace of N subscribes and M unsubscribes of distinct handles,
each unsubscribe coming after the Subscribe that returned its handle (publishes
may be interleaved), ActiveSubscribers is N - M, and M ≤ N; in every state the
running serve loop reaches, an unsubscribe of a registered handle removes that
handle, keeps every other one and lowers the count by one, and an unsubscribe of
a handle that is not registered leaves the listeners unchanged. -/
theorem activeSubscribers_count {T : Type} (msgs : List (Msg T))
    (ho : orderedTrace msgs 0 []) :
    ((Server.New T).run msgs).ActiveSubscribers
        = countSubscribes msgs - countUnsubscribes msgs
    ∧ countUnsubscribes msgs ≤ countSubscribes msgs
    ∧ (∀ pre : List (Msg T), ((Server.New T).run pre).stopped = false →
        ∀ c ∈ ((Server.New T).run pre).listeners,
          (∀ x, x ∈ (((Server.New T).run pre).Unsubscribe c).listeners
            ↔ x ∈ ((Server.New T).run pre).listeners ∧ x ≠ c)
          ∧ (((Server.New T).run pre).Unsubscribe c).ActiveSubscribers + 1
              = ((Server.New T).run pre).ActiveSubscribers)
    ∧ (∀ pre : List (Msg T), ∀ c, c ∉ ((Server.New T).run pre).listeners →
        (((Server.New T).run pre).Unsubscribe c).listeners
          = ((Server.New T).run pre).listeners) := by
  have hcount := Server.run_ordered msgs (Server.New T) [] rfl
    (by simp [Server.New]) (by simp [Server.New]) (by simp [Server.New])
    (by simp) ho
  simp only [Server.New, List.length_nil, Nat.add_zero, Nat.zero_add] at hcount
  refine ⟨?_, ?_, ?_, ?_⟩
  · simp only [Server.ActiveSubscribers, Server.New]
    omega
  · omega
  · intro pre hrun c hc
    have hinv : ((Server.New T).run pre).Inv := Server.inv_run pre _ (Server.inv_New T)
    unfold Server.Unsubscribe
    rw [Server.serve_of_running _ _ hrun]
    simp only [hc, if_true, Server.ActiveSubscribers]
    exact ⟨swapRemove_mem _ _ hc hinv.nodup, swapRemove_length _ _ hc⟩
  · intro pre c hc
    unfold Server.Unsubscribe Server.serve
    by_cases hs : ((Server.New T).run pre).stopped = true
    · simp [hs]
    · simp [hs, hc]

/-- C6 witness: two subscribes, then the first handle is unsubscribed. -/
theorem activeSubscribers_count_witness :
    orderedTrace ([.subscribe, .subscribe, .unsubscribe 0] : List (Msg Nat)) 0 []
    ∧ ((Server.New Nat).run [.subscribe, .subscribe, .unsubscribe 0]).ActiveSubscribers
        = countSubscribes ([.subscribe, .subscribe, .unsubscribe 0] : List (Msg Nat))
          - countUnsubscribes ([.subscribe, .subscribe, .unsubscribe 0] : List (Msg Nat)) :=
  ⟨by simp [orderedTrace],
   (activeSubscribers_count [.subscribe, .subscribe, .unsubscribe 0]
      (by simp [orderedTrace])).1⟩

/-! ### The device registry -/

theorem mapGet_eq_some_iff {κ α : Type} [DecidableEq κ] (m : List (κ × α))
    (hn : (mapKeys m).Nodup) (k : κ) (v : α) : mapGet m k = some v ↔ (k, v) ∈ m := by
  constructor
  · exact mapGet_mem m k v
  · intro h
    induction m with
    | nil => simp at h
    | cons p m ih =>
      obtain ⟨k1, v1⟩ := p
      simp only [mapKeys, List.map_cons, List.nodup_cons, List.mem_map, not_exists,
        not_and] at hn
      simp only [mapGet]
      rcases List.mem_cons.1 h with h | h
      · simp only [Prod.mk.injEq] at h
        simp [h.1, h.2]
      · have hne : ¬ k1 = k := by
          intro e
          exact hn.1 (k, v) h e.symm
        simp only [hne, if_false]
        exact ih hn.2 h

theorem mapKeys_filter_nodup {κ α : Type} (m : List (κ × α)) (p : κ × α → Bool)
    (hn : (mapKeys m).Nodup) : (mapKeys (m.filter p)).Nodup := by
  unfold mapKeys at *
  exact List.Nodup.sublist (List.Sublist.map _ (List.filter_sublist m)) hn

theorem foldl_sweep_devices (now : Nat) (l : List (String × Device)) (acc : Manager) :
    (l.foldl (sweepStep now) acc).devices
      = acc.devices.filter
          (fun e => !(l.any (fun x => decide (x.1 = e.1) && x.2.stale now)))
    ∧ (l.foldl (sweepStep now) acc).deleted
      = acc.deleted ++ l.filter (fun x => x.2.stale now)
    ∧ (l.foldl (sweepStep now) acc).fields = acc.fields
    ∧ (l.foldl (sweepStep now) acc).sweeping = acc.sweeping := by
  induction l generalizing acc with
  | nil => simp
  | cons x l ih =>
    simp only [List.foldl_cons]
    obtain ⟨h1, h2, h3, h4⟩ := ih (sweepStep now acc x)
    rw [h1, h2, h3, h4]
    by_cases hx : x.2.stale now = true
    · have hs : sweepStep now acc x =
          { acc with devices := mapDelete acc.devices x.1, deleted := acc.deleted ++ [x] } := by
        simp [sweepStep, hx]
      rw [hs]
      refine ⟨?_, ?_, rfl, rfl⟩
      · simp only [mapDelete, List.filter_filter, List.any_cons, hx, Bool.and_true,
          Bool.not_or]
        apply List.filter_congr
        intro e _
        rw [Bool.and_comm]
        congr 2
        by_cases hxe : x.1 = e.1
        · simp [hxe]
        · have : ¬ e.1 = x.1 := fun h => hxe h.symm
          simp [hxe, this]
      · simp [List.filter_cons, hx]
    · have hs : sweepStep now acc x = acc := by
        simp [sweepStep, hx]
      rw [hs]
      refine ⟨?_, ?_, rfl, rfl⟩
      · apply List.filter_congr
        intro e _
        simp [List.any_cons, hx]
      · simp [List.filter_cons, hx]

theorem removeStaleDevices_devices (m : Manager) (now : Nat)
    (hk : (mapKeys m.devices).Nodup) :
    (m.removeStaleDevices now).devices = m.devices.filter (fun e => !(e.2.stale now)) := by
  unfold Manager.removeStaleDevices
  rw [(foldl_sweep_devices now m.devices m).1]
  apply List.filter_congr
  intro e he
  congr 1
  rw [Bool.eq_iff_iff]
  simp only [List.any_eq_true, Bool.and_eq_true, decide_eq_true_eq]
  constructor
  · rintro ⟨x, hx, hxe, hs⟩
    have hx2 : x = e := by
      have h1 := (mapGet_eq_some_iff m.devices hk x.1 x.2).2 hx
      have h2 := (mapGet_eq_some_iff m.devices hk e.1 e.2).2 he
      rw [hxe, h2] at h1
      simp only [Option.some.injEq] at h1
      exact Prod.ext hxe h1.symm
    rw [← hx2]; exact hs
  · intro hs
    exact ⟨e, he, rfl, hs⟩

theorem Device.stale_iff (d : Device) (now : Nat) :
    d.stale now = true ↔
      ((now : Int) - (d.lastUpdate : Int) > 60 * second ∧ d.broadcaster.ActiveSubscribers = 0) := by
  unfold Device.stale
  have h := since_gt_iff now d.lastUpdate minute (by decide) (by decide)
  simp only [Bool.and_eq_true, decide_eq_true_eq, beq_iff_eq, h]
  rfl

/-- C4: one run of removeStaleDevices at instant now keeps exactly the devices
that are not both last updated more than 60 s before now and without subscriber:
a device is present afterwards, unchanged, if and only if it was present and is
not such; so a device updated 61 s ago without subscriber is absent, one in the
same state with a subscriber is kept, and every device updated within the last
60 s is kept. -/
theorem removeStaleDevices_exact (m : Manager) (now : Nat)
    (hk : (mapKeys m.devices).Nodup) :
    (m.removeStaleDevices now).devices = m.devices.filter (fun e => !(e.2.stale now))
    ∧ (∀ deviceID d, mapGet (m.removeStaleDevices now).devices deviceID = some d ↔
        (mapGet m.devices deviceID = some d ∧
          ¬ ((now : Int) - (d.lastUpdate : Int) > 60 * second ∧
              d.broadcaster.ActiveSubscribers = 0)))
    ∧ (∀ deviceID d, mapGet m.devices deviceID = some d →
        (now : Int) - (d.lastUpdate : Int) = 61 * second →
        d.broadcaster.ActiveSubscribers = 0 →
        mapGet (m.removeStaleDevices now).devices deviceID = none)
    ∧ (∀ deviceID d, mapGet m.devices deviceID = some d →
        1 ≤ d.broadcaster.ActiveSubscribers →
        mapGet (m.removeStaleDevices now).devices deviceID = some d)
    ∧ (∀ deviceID d, mapGet m.devices deviceID = some d →
        (now : Int) - (d.lastUpdate : Int) ≤ 60 * second →
        mapGet (m.removeStaleDevices now).devices deviceID = some d) := by
  have hdev := removeStaleDevices_devices m now hk
  have hiff : ∀ deviceID d, mapGet (m.removeStaleDevices now).devices deviceID = some d ↔
      (mapGet m.devices deviceID = some d ∧
        ¬ ((now : Int) - (d.lastUpdate : Int) > 60 * second ∧
            d.broadcaster.ActiveSubscribers = 0)) := by
    intro deviceID d
    rw [hdev, mapGet_eq_some_iff _ (mapKeys_filter_nodup _ _ hk),
      mapGet_eq_some_iff _ hk, List.mem_filter, ← Device.stale_iff d now]
    simp
  refine ⟨hdev, hiff, ?_, ?_, ?_⟩
  · intro deviceID d hd hage hsub
    cases hg : mapGet (m.removeStaleDevices now).devices deviceID with
    | none => rfl
    | some d2 =>
      exfalso
      obtain ⟨h1, h2⟩ := (hiff deviceID d2).1 hg
      rw [hd] at h1
      simp only [Option.some.injEq] at h1
      subst h1
      apply h2
      have hsec : second = 1000000000 := rfl
      exact ⟨by omega, hsub⟩
  · intro deviceID d hd hsub
    apply (hiff deviceID d).2
    refine ⟨hd, ?_⟩
    intro h
    omega
  · intro deviceID d hd hage
    apply (hiff deviceID d).2
    refine ⟨hd, ?_⟩
    intro h
    omega

/-- C4 witness: a registry holding one device that was never updated and has
one subscriber, swept at 61 s; the sweep keeps it. -/
theorem removeStaleDevices_exact_witness :
    (mapKeys ((Manager.New ⟨["temp"], []⟩).Subscribe "dev1").1.devices).Nodup
    ∧ (((Manager.New ⟨["temp"], []⟩).Subscribe "dev1").1.removeStaleDevices
          61000000000).devices
        = ((Manager.New ⟨["temp"], []⟩).Subscribe "dev1").1.devices.filter
            (fun e => !(e.2.stale 61000000000)) :=
  ⟨by decide,
   (removeStaleDevices_exact ((Manager.New ⟨["temp"], []⟩).Subscribe "dev1").1
      61000000000 (by decide)).1⟩

/-- C7: the device updated at instant 0 and swept at 61 s is deleted from the
registry, and the expiry task of its metric is still running: the sweep calls
Stop on no metric. -/
theorem removeStaleDevices_leaves_expiry_task_running :
    mapHas
        ((((Manager.New ⟨["temp"], []⟩).Update "dev1" ⟨[], []⟩ 0).manager).removeStaleDevices
          61000000000).devices "dev1" = false
    ∧ (((((Manager.New ⟨["temp"], []⟩).Update "dev1" ⟨[], []⟩ 0).manager).removeStaleDevices
          61000000000).deleted.map
        (fun e => (e.1, e.2.metrics.map (fun x => (x.1, x.2.cleaning)))))
        = [("dev1", [("temp", true)])] := by
  constructor
  · decide
  · decide

/-- C9: with no metadata key configured, an update carrying the metadata key
"foo" leaves "foo" in the metadata of the device and in the published snapshot:
the configured metadata list is never consulted. -/
theorem update_keeps_unlisted_metadata :
    (mapGet ((Manager.New ⟨["temp"], []⟩).Update "dev1" ⟨[], [("foo", "bar")]⟩ 5).manager.devices
        "dev1").map (fun d => d.metadata) = some [("foo", "bar")]
    ∧ (((Manager.New ⟨["temp"], []⟩).Update "dev1" ⟨[], [("foo", "bar")]⟩ 5).published.map
        (fun b => b.Metadata)) = [[("foo", "bar")]] := by
  constructor
  · decide
  · rfl

theorem mem_mapSet {κ α : Type} [DecidableEq κ] (m : List (κ × α)) (k : κ) (v : α)
    (x : κ × α) (h : x ∈ mapSet m k v) : x = (k, v) ∨ x ∈ m := by
  induction m with
  | nil =>
    simp only [mapSet, List.mem_singleton] at h
    exact Or.inl h
  | cons p m ih =>
    obtain ⟨k1, v1⟩ := p
    simp only [mapSet] at h
    split_ifs at h with hk
    · rcases List.mem_cons.1 h with h | h
      · left; rw [h, hk]
      · right; exact List.mem_cons_of_mem _ h
    · rcases List.mem_cons.1 h with h | h
      · right; rw [h]; exact List.mem_cons_self _ _
      · rcases ih h with h | h
        · exact Or.inl h
        · exact Or.inr (List.mem_cons_of_mem _ h)

theorem mapGet_mapSet_self {κ α : Type} [DecidableEq κ] (m : List (κ × α)) (k : κ) (v : α) :
    mapGet (mapSet m k v) k = some v := by
  induction m with
  | nil => simp [mapSet, mapGet]
  | cons p m ih =>
    obtain ⟨k1, v1⟩ := p
    simp only [mapSet]
    split_ifs with hk
    · simp [mapGet, hk]
    · simp [mapGet, hk, ih]

theorem mapGet_mapSet_ne {κ α : Type} [DecidableEq κ] (m : List (κ × α)) (k k2 : κ) (v : α)
    (hne : k ≠ k2) : mapGet (mapSet m k v) k2 = mapGet m k2 := by
  induction m with
  | nil => simp [mapSet, mapGet, hne]
  | cons p m ih =>
    obtain ⟨k1, v1⟩ := p
    simp only [mapSet]
    split_ifs with hk
    · have : ¬ k1 = k2 := by rw [hk]; exact hne
      simp [mapGet, this]
    · by_cases h2 : k1 = k2
      · simp [mapGet, h2]
      · simp [mapGet, h2, ih]

theorem mapGet_eq_none_iff {κ α : Type} [DecidableEq κ] (m : List (κ × α)) (k : κ) :
    mapGet m k = none ↔ k ∉ mapKeys m := by
  induction m with
  | nil => simp [mapGet, mapKeys]
  | cons p m ih =>
    obtain ⟨k1, v1⟩ := p
    simp only [mapGet, mapKeys, List.map_cons, List.mem_cons, not_or]
    split_ifs with hk
    · simp [hk]
    · simp only [mapKeys] at ih
      rw [ih]
      constructor
      · intro h
        exact ⟨fun e => hk e.symm, h⟩
      · intro h
        exact h.2

theorem mapKeys_mapSet_of_get {κ α : Type} [DecidableEq κ] (m : List (κ × α)) (k : κ)
    (v w : α) (h : mapGet m k = some w) : mapKeys (mapSet m k v) = mapKeys m := by
  induction m with
  | nil => simp [mapGet] at h
  | cons p m ih =>
    obtain ⟨k1, v1⟩ := p
    simp only [mapGet] at h
    simp only [mapSet]
    split_ifs with hk
    · simp [mapKeys]
    · simp only [hk, if_false] at h
      have := ih h
      simp only [mapKeys] at this
      simp [mapKeys, this]

theorem mem_mapKeys_mapSet {κ α : Type} [DecidableEq κ] (m : List (κ × α)) (k : κ) (v : α)
    (x : κ) : x ∈ mapKeys (mapSet m k v) ↔ x ∈ mapKeys m ∨ x = k := by
  induction m with
  | nil => simp [mapSet, mapKeys]
  | cons p m ih =>
    obtain ⟨k1, v1⟩ := p
    simp only [mapSet]
    split_ifs with hk
    · simp only [mapKeys, List.map_cons, List.mem_cons]
      constructor
      · intro h; exact Or.inl h
      · rintro (h | h)
        · exact h
        · left; rw [h, hk]
    · simp only [mapKeys, List.map_cons, List.mem_cons] at ih ⊢
      rw [ih]
      tauto

theorem mapKeys_mapSet_nodup {κ α : Type} [DecidableEq κ] (m : List (κ × α)) (k : κ) (v : α)
    (hn : (mapKeys m).Nodup) : (mapKeys (mapSet m k v)).Nodup := by
  induction m with
  | nil => simp [mapSet, mapKeys]
  | cons p m ih =>
    obtain ⟨k1, v1⟩ := p
    simp only [mapSet]
    split_ifs with hk
    · simpa [mapKeys] using hn
    · simp only [mapKeys, List.map_cons, List.nodup_cons] at hn ⊢
      refine ⟨?_, ih hn.2⟩
      intro hmem
      have := (mem_mapKeys_mapSet m k v k1).1 hmem
      rcases this with h | h
      · exact hn.1 h
      · exact hk h

theorem mem_mapKeys_newMetrics (names : List String) (k : String) :
    k ∈ mapKeys (newMetrics names) ↔ k ∈ names := by
  unfold newMetrics
  have gen : ∀ (acc : List (String × AggregatedMetric)),
      k ∈ mapKeys (names.foldl (fun metrics k => mapSet metrics k NewAggregatedMetric) acc)
        ↔ k ∈ mapKeys acc ∨ k ∈ names := by
    induction names with
    | nil => intro acc; simp
    | cons n names ih =>
      intro acc
      simp only [List.foldl_cons, List.mem_cons]
      rw [ih, mem_mapKeys_mapSet]
      tauto
  rw [gen]
  simp [mapKeys]

theorem foldl_newMetrics_empty (names : List String)
    (acc : List (String × AggregatedMetric))
    (hacc : ∀ x ∈ acc, x.2 = NewAggregatedMetric) :
    ∀ x ∈ names.foldl (fun metrics k => mapSet metrics k NewAggregatedMetric) acc,
      x.2 = NewAggregatedMetric := by
  induction names generalizing acc with
  | nil => simpa using hacc
  | cons n names ih =>
    simp only [List.foldl_cons]
    apply ih
    intro x hx
    rcases mem_mapSet _ _ _ _ hx with h | h
    · rw [h]
    · exact hacc x h

theorem newMetrics_empty (names : List String) (x : String × AggregatedMetric)
    (h : x ∈ newMetrics names) : x.2 = NewAggregatedMetric :=
  foldl_newMetrics_empty names [] (by simp) x h

theorem mapKeys_applyMetrics (now : Nat) (u : List (String × F64))
    (ms : List (String × AggregatedMetric)) :
    mapKeys (applyMetrics now ms u) = mapKeys ms := by
  induction u generalizing ms with
  | nil => rfl
  | cons kv u ih =>
    simp only [applyMetrics, List.foldl_cons]
    cases hg : mapGet ms kv.1 with
    | none => exact ih ms
    | some a =>
      have := ih (mapSet ms kv.1 (a.Update now kv.2))
      simp only [applyMetrics] at this
      rw [this, mapKeys_mapSet_of_get _ _ _ _ hg]

theorem mapGet_applyMetrics (now : Nat) (u : List (String × F64))
    (ms : List (String × AggregatedMetric)) (hn : (mapKeys u).Nodup) (k : String) :
    mapGet (applyMetrics now ms u) k
      = (mapGet ms k).map
          (fun a => match mapGet u k with
            | some v => a.Update now v
            | none => a) := by
  induction u generalizing ms with
  | nil => simp [applyMetrics, mapGet]
  | cons kv u ih =>
    obtain ⟨k1, v1⟩ := kv
    simp only [mapKeys, List.map_cons, List.nodup_cons] at hn
    have ih2 := fun ms2 => ih ms2 hn.2
    simp only [applyMetrics, List.foldl_cons] at ih2 ⊢
    by_cases hk : k1 = k
    · subst hk
      have hnone : mapGet u k1 = none := (mapGet_eq_none_iff u k1).2 hn.1
      cases hg : mapGet ms k1 with
      | none =>
        simp only
        rw [ih2, hg]
        rfl
      | some a =>
        simp only
        rw [ih2, mapGet_mapSet_self, hnone]
        simp [mapGet]
    · cases hg : mapGet ms k1 with
      | none =>
        simp only
        rw [ih2]
        simp [mapGet, hk]
      | some a =>
        simp only
        rw [ih2, mapGet_mapSet_ne _ _ _ _ hk]
        simp [mapGet, hk]

theorem applyMetrics_values (now : Nat) (u : List (String × F64))
    (ms : List (String × AggregatedMetric)) (P : Nat × F64 → Prop)
    (hu : ∀ kv ∈ u, kv.1 ∈ mapKeys ms → P (now, kv.2))
    (hms : ∀ x ∈ ms, ∀ p ∈ x.2.values, P p) :
    ∀ x ∈ applyMetrics now ms u, ∀ p ∈ x.2.values, P p := by
  induction u generalizing ms with
  | nil => simpa [applyMetrics] using hms
  | cons kv u ih =>
    simp only [applyMetrics, List.foldl_cons]
    cases hg : mapGet ms kv.1 with
    | none =>
      exact ih ms (fun kv2 h2 => hu kv2 (List.mem_cons_of_mem _ h2)) hms
    | some a =>
      have hkeys := mapKeys_mapSet_of_get ms kv.1 (a.Update now kv.2) a hg
      apply ih (mapSet ms kv.1 (a.Update now kv.2))
      · intro kv2 h2 hk2
        rw [hkeys] at hk2
        exact hu kv2 (List.mem_cons_of_mem _ h2) hk2
      · intro x hx p hp
        rcases mem_mapSet _ _ _ _ hx with h | h
        · rw [h] at hp
          simp only [AggregatedMetric.Update] at hp
          rcases mem_mapSet _ _ _ _ hp with h2 | h2
          · rw [h2]
            apply hu kv (List.mem_cons_self _ _)
            have : mapGet ms kv.1 ≠ none := by rw [hg]; simp
            by_contra hc
            exact this ((mapGet_eq_none_iff ms kv.1).2 hc)
          · exact hms _ (mapGet_mem ms kv.1 a hg) p h2
        · exact hms x h p hp

theorem getOrCreateDevice_get (m : Manager) (deviceID : String) :
    mapGet (m.getOrCreateDevice deviceID).1.devices deviceID
      = some (m.getOrCreateDevice deviceID).2 := by
  unfold Manager.getOrCreateDevice
  cases hg : mapGet m.devices deviceID with
  | some d => simpa using hg
  | none => simp [mapGet_mapSet_self]

theorem getOrCreateDevice_fields (m : Manager) (deviceID : String) :
    (m.getOrCreateDevice deviceID).1.fields = m.fields := by
  unfold Manager.getOrCreateDevice
  cases mapGet m.devices deviceID <;> rfl

theorem inv_mapSet (m : Manager) (deviceID : String) (d : Device) (h : m.Inv)
    (hd : ∀ k, k ∈ mapKeys d.metrics ↔ k ∈ m.fields.Metrics) :
    Manager.Inv { m with devices := mapSet m.devices deviceID d } := by
  intro entry he k
  rcases mem_mapSet _ _ _ _ he with h1 | h1
  · rw [h1]; exact hd k
  · exact h entry h1 k

theorem getOrCreateDevice_inv (m : Manager) (deviceID : String) (h : m.Inv) :
    (m.getOrCreateDevice deviceID).1.Inv
    ∧ ∀ k, k ∈ mapKeys (m.getOrCreateDevice deviceID).2.metrics ↔ k ∈ m.fields.Metrics := by
  unfold Manager.getOrCreateDevice
  cases hg : mapGet m.devices deviceID with
  | some d =>
    exact ⟨h, fun k => h (deviceID, d) (mapGet_mem _ _ _ hg) k⟩
  | none =>
    simp only
    exact ⟨inv_mapSet m deviceID _ h (fun k => mem_mapKeys_newMetrics _ k),
      fun k => mem_mapKeys_newMetrics _ k⟩

theorem publish_metrics (d : Device) (now : Nat) :
    (Manager.publish d now).1.metrics = d.metrics
    ∧ (Manager.publish d now).1.metadata = d.metadata
    ∧ (Manager.publish d now).1.lastUpdate = d.lastUpdate := by
  unfold Manager.publish
  cases jsonMarshalPayload d now <;> simp

theorem Update_eq (m : Manager) (deviceID : String) (u : Updates) (now : Nat) :
    m.Update deviceID u now =
      { manager :=
          { (m.getOrCreateDevice deviceID).1 with
            devices := mapSet (m.getOrCreateDevice deviceID).1.devices deviceID
              (Manager.publish
                { (m.getOrCreateDevice deviceID).2 with
                  lastUpdate := now,
                  metrics := applyMetrics now (m.getOrCreateDevice deviceID).2.metrics u.Metrics,
                  metadata := applyMetadata (m.getOrCreateDevice deviceID).2.metadata
                    u.Metadata } now).1 },
        err := none,
        published :=
          (Manager.publish
            { (m.getOrCreateDevice deviceID).2 with
              lastUpdate := now,
              metrics := applyMetrics now (m.getOrCreateDevice deviceID).2.metrics u.Metrics,
              metadata := applyMetadata (m.getOrCreateDevice deviceID).2.metadata
                u.Metadata } now).2 } := rfl

theorem Update_inv (m : Manager) (deviceID : String) (u : Updates) (now : Nat)
    (h : m.Inv) :
    (m.Update deviceID u now).manager.Inv
    ∧ (m.Update deviceID u now).manager.fields = m.fields := by
  rw [Update_eq]
  obtain ⟨h1, h2⟩ := getOrCreateDevice_inv m deviceID h
  have hf := getOrCreateDevice_fields m deviceID
  refine ⟨?_, hf⟩
  apply inv_mapSet _ _ _ h1
  intro k
  rw [(publish_metrics _ now).1]
  simp only
  rw [mapKeys_applyMetrics, hf]
  exact h2 k

theorem Subscribe_inv (m : Manager) (deviceID : String) (h : m.Inv) :
    (m.Subscribe deviceID).1.Inv ∧ (m.Subscribe deviceID).1.fields = m.fields := by
  obtain ⟨h1, h2⟩ := getOrCreateDevice_inv m deviceID h
  have hf := getOrCreateDevice_fields m deviceID
  refine ⟨?_, hf⟩
  apply inv_mapSet _ _ _ h1
  intro k
  rw [hf]
  exact h2 k

theorem Unsubscribe_inv (m : Manager) (deviceID : String) (c : Nat) (h : m.Inv) :
    (m.Unsubscribe deviceID c).Inv ∧ (m.Unsubscribe deviceID c).fields = m.fields := by
  obtain ⟨h1, h2⟩ := getOrCreateDevice_inv m deviceID h
  have hf := getOrCreateDevice_fields m deviceID
  refine ⟨?_, hf⟩
  apply inv_mapSet _ _ _ h1
  intro k
  rw [hf]
  exact h2 k

theorem removeStaleDevices_inv (m : Manager) (now : Nat) (h : m.Inv) :
    (m.removeStaleDevices now).Inv ∧ (m.removeStaleDevices now).fields = m.fields := by
  obtain ⟨h1, -, h3, -⟩ := foldl_sweep_devices now m.devices m
  unfold Manager.removeStaleDevices
  refine ⟨?_, h3⟩
  intro entry he k
  rw [h1] at he
  rw [h3]
  exact h entry (List.mem_filter.1 he).1 k

theorem Shutdown_inv (m : Manager) (h : m.Inv) :
    m.Shutdown.Inv ∧ m.Shutdown.fields = m.fields := by
  refine ⟨?_, rfl⟩
  intro entry he k
  simp only [Manager.Shutdown, List.mem_map] at he
  obtain ⟨e0, he0, rfl⟩ := he
  exact h e0 he0 k

theorem step_inv (m : Manager) (op : Op) (h : m.Inv) :
    (m.step op).Inv ∧ (m.step op).fields = m.fields := by
  cases op with
  | update deviceID u now => exact Update_inv m deviceID u now h
  | subscribe deviceID => exact Subscribe_inv m deviceID h
  | unsubscribe deviceID c => exact Unsubscribe_inv m deviceID c h
  | sweep now =>
    simp only [Manager.step]
    split_ifs
    · exact removeStaleDevices_inv m now h
    · exact ⟨h, rfl⟩
  | shutdown => exact Shutdown_inv m h

theorem exec_inv (ops : List Op) (m : Manager) (h : m.Inv) :
    (m.exec ops).Inv ∧ (m.exec ops).fields = m.fields := by
  induction ops generalizing m with
  | nil => exact ⟨h, rfl⟩
  | cons op ops ih =>
    obtain ⟨h1, h2⟩ := step_inv m op h
    obtain ⟨h3, h4⟩ := ih (m.step op) h1
    exact ⟨h3, h4.trans h2⟩

theorem New_inv (fields : ManagerFields) : (Manager.New fields).Inv := by
  intro entry he
  simp [Manager.New] at he

theorem marshalMetrics_keys (now : Nat) (ms : List (String × AggregatedMetric))
    (out : List (String × Snapshot)) (h : marshalMetrics now ms = .ok out) :
    mapKeys out = mapKeys ms := by
  induction ms generalizing out with
  | nil =>
    simp only [marshalMetrics, Except.ok.injEq] at h
    rw [← h]
    rfl
  | cons x ms ih =>
    obtain ⟨k, a⟩ := x
    simp only [marshalMetrics] at h
    cases h1 : (a.MarshalJSON now).2 with
    | error e => rw [h1] at h; simp at h
    | ok s =>
      rw [h1] at h
      cases h2 : marshalMetrics now ms with
      | error e => rw [h2] at h; simp at h
      | ok ss =>
        rw [h2] at h
        simp only [Except.ok.injEq] at h
        rw [← h]
        have := ih ss h2
        simp only [mapKeys] at this
        simp [mapKeys, this]

theorem marshalMetrics_ok (now : Nat) (ms : List (String × AggregatedMetric))
    (henc : ∀ x ∈ ms, (x.2.snapshot now).encodable = true) :
    marshalMetrics now ms = .ok (ms.map (fun x => (x.1, x.2.snapshot now))) := by
  induction ms with
  | nil => rfl
  | cons x ms ih =>
    obtain ⟨k, a⟩ := x
    have h1 := (marshalJSON_eq a now).1 (henc (k, a) (List.mem_cons_self _ _))
    simp only [marshalMetrics, h1, ih (fun x hx => henc x (List.mem_cons_of_mem _ hx)),
      List.map_cons]

theorem mapGet_map_snd {α β : Type} (ms : List (String × α)) (f : α → β) (k : String) :
    mapGet (ms.map (fun x => (x.1, f x.2))) k = (mapGet ms k).map f := by
  induction ms with
  | nil => rfl
  | cons x ms ih =>
    obtain ⟨k1, a⟩ := x
    simp only [List.map_cons, mapGet]
    split_ifs with hk
    · rfl
    · exact ih

theorem specLast_mapSet (vals : List (Nat × F64)) (now : Nat) (v : F64)
    (hts : ∀ p ∈ vals, p.1 ≤ now) : specLast (mapSet vals now v) = v := by
  unfold specLast
  cases hm : maxTimestamp (mapKeys (mapSet vals now v)) with
  | none =>
    have := (maxTimestamp_eq_none _).1 hm
    have hmem : now ∈ mapKeys (mapSet vals now v) :=
      (mem_mapKeys_mapSet vals now v now).2 (Or.inr rfl)
    rw [this] at hmem
    simp at hmem
  | some t =>
    obtain ⟨hmem, hmax⟩ := maxTimestamp_mem _ t hm
    have hnow : now ∈ mapKeys (mapSet vals now v) :=
      (mem_mapKeys_mapSet vals now v now).2 (Or.inr rfl)
    have h1 : now ≤ t := hmax now hnow
    have h2 : t ≤ now := by
      rcases (mem_mapKeys_mapSet vals now v t).1 hmem with h | h
      · simp only [mapKeys, List.mem_map] at h
        obtain ⟨p, hp, rfl⟩ := h
        exact hts p hp
      · exact le_of_eq h
    have : t = now := le_antisymm h2 h1
    subst this
    simp [mapGet_mapSet_self]

theorem marshalMetrics_eq (now : Nat) (ms : List (String × AggregatedMetric))
    (out : List (String × Snapshot)) (h : marshalMetrics now ms = .ok out) :
    out = ms.map (fun x => (x.1, x.2.snapshot now))
    ∧ ∀ x ∈ ms, (x.2.snapshot now).encodable = true := by
  induction ms generalizing out with
  | nil =>
    simp only [marshalMetrics, Except.ok.injEq] at h
    rw [← h]
    exact ⟨rfl, by simp⟩
  | cons x ms ih =>
    obtain ⟨k, a⟩ := x
    simp only [marshalMetrics] at h
    cases h1 : (a.MarshalJSON now).2 with
    | error e => rw [h1] at h; simp at h
    | ok s =>
      rw [h1] at h
      cases h2 : marshalMetrics now ms with
      | error e => rw [h2] at h; simp at h
      | ok ss =>
        rw [h2] at h
        simp only [Except.ok.injEq] at h
        have henc : (a.snapshot now).encodable = true := by
          by_contra hne
          have hf : (a.snapshot now).encodable = false := by simpa using hne
          rw [(marshalJSON_eq a now).2 hf] at h1
          simp at h1
        have hs : s = a.snapshot now := by
          rw [(marshalJSON_eq a now).1 henc] at h1
          simp only [Except.ok.injEq] at h1
          exact h1.symm
        obtain ⟨ih1, ih2⟩ := ih ss h2
        refine ⟨?_, ?_⟩
        · rw [← h, ih1, hs]
          rfl
        · intro x hx
          rcases List.mem_cons.1 hx with rfl | hx
          · exact henc
          · exact ih2 x hx

theorem marshalMetrics_error (now : Nat) (ms : List (String × AggregatedMetric))
    (e : String) (h : marshalMetrics now ms = .error e) :
    ∃ x ∈ ms, (x.2.snapshot now).encodable = false := by
  by_contra hno
  have hall : ∀ x ∈ ms, (x.2.snapshot now).encodable = true := by
    intro x hx
    by_contra hne
    exact hno ⟨x, hx, by simpa using hne⟩
  rw [marshalMetrics_ok now ms hall] at h
  simp at h

/-- C3: in every state the registry reaches, Update returns no error; afterwards
the metric names of the device are exactly the configured ones, so a metric key
of the update that is not configured is dropped; every metric the update does
not name is unchanged; and the metric names of a snapshot it publishes are
exactly the configured ones. -/
theorem update_drops_unknown_metrics (fields : ManagerFields) (ops : List Op)
    (deviceID : String) (u : Updates) (now : Nat) :
    (((Manager.New fields).exec ops).Update deviceID u now).err = none
    ∧ (∃ d, mapGet (((Manager.New fields).exec ops).Update deviceID u now).manager.devices
          deviceID = some d
        ∧ (∀ k, k ∈ mapKeys d.metrics ↔ k ∈ fields.Metrics)
        ∧ (∀ k, k ∉ fields.Metrics → mapGet d.metrics k = none)
        ∧ (∀ k, k ∉ mapKeys u.Metrics →
            mapGet d.metrics k
              = mapGet (((Manager.New fields).exec ops).getOrCreateDevice deviceID).2.metrics k))
    ∧ (∀ b ∈ (((Manager.New fields).exec ops).Update deviceID u now).published,
        ∀ k, k ∈ mapKeys b.Metrics ↔ k ∈ fields.Metrics) := by
  obtain ⟨hinv, hfields⟩ := exec_inv ops (Manager.New fields) (New_inv fields)
  have hf : ((Manager.New fields).exec ops).fields = fields := hfields
  generalize (Manager.New fields).exec ops = m at hinv hf
  obtain ⟨-, hmet⟩ := getOrCreateDevice_inv m deviceID hinv
  rw [hf] at hmet
  rw [Update_eq]
  refine ⟨rfl, ⟨_, mapGet_mapSet_self _ _ _, ?_, ?_, ?_⟩, ?_⟩
  · intro k
    rw [(publish_metrics _ now).1]
    simp only
    rw [mapKeys_applyMetrics]
    exact hmet k
  · intro k hk
    rw [(publish_metrics _ now).1]
    simp only
    rw [mapGet_eq_none_iff, mapKeys_applyMetrics]
    exact fun h => hk ((hmet k).1 h)
  · intro k hk
    rw [(publish_metrics _ now).1]
    simp only
    have gen : ∀ (us : List (String × F64)) (ms : List (String × AggregatedMetric)),
        k ∉ mapKeys us → mapGet (applyMetrics now ms us) k = mapGet ms k := by
      intro us
      induction us with
      | nil => intro ms _; rfl
      | cons kv us ih =>
        intro ms hkv
        simp only [mapKeys, List.map_cons, List.mem_cons, not_or] at hkv
        have ih2 := fun ms2 => ih ms2 (by simpa [mapKeys] using hkv.2)
        simp only [applyMetrics, List.foldl_cons] at ih2 ⊢
        cases hg : mapGet ms kv.1 with
        | none => exact ih2 ms
        | some a =>
          simp only
          rw [ih2, mapGet_mapSet_ne _ _ _ _ (fun e => hkv.1 e.symm)]
    exact gen _ _ hk
  · intro b hb k
    simp only [Manager.publish] at hb
    cases hj : jsonMarshalPayload
        { (m.getOrCreateDevice deviceID).2 with
          lastUpdate := now,
          metrics := applyMetrics now (m.getOrCreateDevice deviceID).2.metrics u.Metrics,
          metadata := applyMetadata (m.getOrCreateDevice deviceID).2.metadata u.Metadata }
        now with
    | error e => rw [hj] at hb; simp at hb
    | ok b2 =>
      rw [hj] at hb
      simp only [List.mem_singleton] at hb
      subst hb
      simp only [jsonMarshalPayload] at hj
      cases hmm : marshalMetrics now
          (applyMetrics now (m.getOrCreateDevice deviceID).2.metrics u.Metrics) with
      | error e => rw [hmm] at hj; simp at hj
      | ok out =>
        rw [hmm] at hj
        simp only [Except.ok.injEq] at hj
        rw [← hj]
        simp only
        rw [marshalMetrics_keys _ _ _ hmm, mapKeys_applyMetrics]
        exact hmet k

/-- C2 counterexample: with metric set temp, the update of dev1 carrying temp =
NaN publishes nothing (the encoding of the snapshot fails), so it is not true
that every update publishes exactly one snapshot. -/
theorem update_nonfinite_publishes_nothing :
    ((Manager.New ⟨["temp"], []⟩).Update "dev1" ⟨[("temp", F64.nonFinite)], []⟩ 5).published
      = [] := by
  rfl

/-- C2 amended: in every state the registry reaches, when the samples recorded
for the device are stamped no later than now, Update sets the lastUpdate of the
device to now; it passes exactly one snapshot to the hub of the device when the
last, 10s and 30s of every metric of the updated device are finite, and none
when one of them is NaN or infinite; in the snapshot it publishes, the last
value of every configured metric named by the update is the value given. -/
theorem update_publishes_last (fields : ManagerFields) (ops : List Op)
    (deviceID : String) (u : Updates) (now : Nat)
    (hkeys : (mapKeys u.Metrics).Nodup)
    (hts : ∀ x ∈ (((Manager.New fields).exec ops).getOrCreateDevice deviceID).2.metrics,
      ∀ p ∈ x.2.values, p.1 ≤ now) :
    ∃ d, mapGet (((Manager.New fields).exec ops).Update deviceID u now).manager.devices
          deviceID = some d
      ∧ d.lastUpdate = now
      ∧ (((∃ x ∈ d.metrics, (x.2.snapshot now).encodable = false)
            ∧ (((Manager.New fields).exec ops).Update deviceID u now).published = []
            ∧ d.broadcaster
              = (((Manager.New fields).exec ops).getOrCreateDevice deviceID).2.broadcaster)
          ∨ ((∀ x ∈ d.metrics, (x.2.snapshot now).encodable = true)
            ∧ ∃ b, (((Manager.New fields).exec ops).Update deviceID u now).published = [b]
              ∧ d.broadcaster
                = (((Manager.New fields).exec ops).getOrCreateDevice
                    deviceID).2.broadcaster.Publish b
              ∧ ∀ kv ∈ u.Metrics, kv.1 ∈ fields.Metrics →
                  ∃ s, mapGet b.Metrics kv.1 = some s ∧ s.Last = kv.2)) := by
  obtain ⟨hinv, hfields⟩ := exec_inv ops (Manager.New fields) (New_inv fields)
  have hf : ((Manager.New fields).exec ops).fields = fields := hfields
  generalize (Manager.New fields).exec ops = m at hinv hf hts
  obtain ⟨-, hmet⟩ := getOrCreateDevice_inv m deviceID hinv
  rw [hf] at hmet
  rw [Update_eq]
  refine ⟨_, mapGet_mapSet_self _ _ _, (publish_metrics _ now).2.2, ?_⟩
  rw [(publish_metrics _ now).1]
  simp only [Manager.publish, jsonMarshalPayload]
  cases hmm : marshalMetrics now
      (applyMetrics now (m.getOrCreateDevice deviceID).2.metrics u.Metrics) with
  | error e => exact Or.inl ⟨marshalMetrics_error _ _ e hmm, rfl, rfl⟩
  | ok out =>
    right
    obtain ⟨hout, henc⟩ := marshalMetrics_eq _ _ _ hmm
    refine ⟨henc, _, rfl, rfl, ?_⟩
    intro kv hkv hk
    simp only
    rw [hout, mapGet_map_snd _ (fun a : AggregatedMetric => a.snapshot now),
      mapGet_applyMetrics now u.Metrics _ hkeys]
    have hin : kv.1 ∈ mapKeys (m.getOrCreateDevice deviceID).2.metrics := (hmet kv.1).2 hk
    cases hg : mapGet (m.getOrCreateDevice deviceID).2.metrics kv.1 with
    | none => exact absurd hin ((mapGet_eq_none_iff _ _).1 hg)
    | some a =>
      have hu2 : mapGet u.Metrics kv.1 = some kv.2 :=
        (mapGet_eq_some_iff u.Metrics hkeys kv.1 kv.2).2 hkv
      simp only [Option.map_some, hu2]
      refine ⟨_, rfl, ?_⟩
      rw [(snapshot_eq _ now).1]
      simp only [AggregatedMetric.Update]
      apply specLast_mapSet
      intro p hp
      exact hts (kv.1, a) (mapGet_mem _ _ _ hg) p hp

/-- C2 witness: metric set temp, first update of dev1 with temp = 20 at instant
5: one snapshot is published and its temp.last is 20. -/
theorem update_publishes_last_witness :
    ∃ b, ((Manager.New ⟨["temp"], []⟩).Update "dev1" ⟨[("temp", F64.fin 20)], []⟩ 5).published
        = [b]
      ∧ ∃ s, mapGet b.Metrics "temp" = some s ∧ s.Last = F64.fin 20 := by
  obtain ⟨d, -, -, h⟩ :=
    update_publishes_last ⟨["temp"], []⟩ [] "dev1" ⟨[("temp", F64.fin 20)], []⟩ 5
      (by decide) (by decide)
  have hne : ((Manager.New ⟨["temp"], []⟩).Update "dev1" ⟨[("temp", F64.fin 20)], []⟩
      5).published.length = 1 := by decide!
  rcases h with ⟨-, hnil, -⟩ | ⟨-, b, hb, -, hlast⟩
  · have hnil2 : ((Manager.New ⟨["temp"], []⟩).Update "dev1" ⟨[("temp", F64.fin 20)], []⟩
        5).published = [] := hnil
    rw [hnil2] at hne
    simp at hne
  · exact ⟨b, hb, hlast ("temp", F64.fin 20) (by simp) (by simp)⟩

/-! ### The topic router -/

theorem startsWith_nil (s : List Char) : startsWith s [] = true := by
  cases s <;> rfl

theorem stringsContains_hash (s : List Char) :
    stringsContains s ['#'] = true ↔ '#' ∈ s := by
  induction s with
  | nil => simp [stringsContains, startsWith]
  | cons c s ih =>
    simp only [stringsContains, Bool.or_eq_true, ih, List.mem_cons]
    have : startsWith (c :: s) ['#'] = true ↔ '#' = c := by
      simp only [startsWith, startsWith_nil, Bool.and_true, beq_iff_eq]
      exact eq_comm
    rw [this]

theorem stringsContains_placeholder (s : List Char) :
    stringsContains s devicePlaceholder = true ↔ 1 ≤ placeholderCount s := by
  induction s with
  | nil => simp [stringsContains, startsWith, placeholderCount, devicePlaceholder]
  | cons c s ih =>
    simp only [stringsContains, Bool.or_eq_true, ih, placeholderCount]
    by_cases h : startsWith (c :: s) devicePlaceholder = true
    · simp [h]
    · simp [h]

theorem configureTopic_returns (c : Consumer) (topic : List Char) (mapping : MQTTMapping) :
    returns (configureTopic c topic mapping) = true
      ↔ ('#' ∉ topic ∧ 1 ≤ placeholderCount topic) := by
  rw [← stringsContains_hash, ← stringsContains_placeholder]
  unfold configureTopic
  by_cases h1 : stringsContains topic ['#'] = true
  · simp [h1, returns]
  · by_cases h2 : stringsContains topic devicePlaceholder = true
    · simp [h1, h2, returns]
    · simp [h1, h2, returns]

/-- C8 counterexample: the topic a/DEVICE/b/DEVICE (both in braces) holds the
placeholder twice and configureTopics accepts it. -/
theorem configureTopics_accepts_two_placeholders :
    placeholderCount "a/\x7bDEVICE\x7d/b/\x7bDEVICE\x7d".toList = 2
    ∧ returns (Consumer.configureTopics ⟨Manager.New ⟨[], []⟩, [], []⟩
        [("a/\x7bDEVICE\x7d/b/\x7bDEVICE\x7d".toList, ⟨[], []⟩)]) = true := by
  constructor
  · decide
  · decide

/-- C8 amended: configureTopics accepts the configured patterns if and only if
every pattern holds the placeholder at least once and holds no multi-level
wildcard: a pattern without placeholder or with a wildcard is a fatal error,
and a pattern with two or more placeholders is accepted. -/
theorem configureTopics_accepts_iff (c : Consumer) (topics : List (List Char × MQTTMapping)) :
    returns (c.configureTopics topics) = true
      ↔ ∀ tm ∈ topics, '#' ∉ tm.1 ∧ 1 ≤ placeholderCount tm.1 := by
  induction topics generalizing c with
  | nil => simp [Consumer.configureTopics, returns]
  | cons tm topics ih =>
    obtain ⟨topic, mapping⟩ := tm
    have h := configureTopic_returns c topic mapping
    simp only [Consumer.configureTopics, List.mem_cons, forall_eq_or_imp]
    cases hc : configureTopic c topic mapping with
    | error e =>
      rw [hc] at h
      simp only [returns] at h ⊢
      constructor
      · intro hf; simp at hf
      · intro hall
        exact absurd (h.2 hall.1) (by simp)
    | ok c1 =>
      rw [hc] at h
      simp only [returns, true_iff] at h
      simp only
      rw [ih c1]
      constructor
      · intro hall; exact ⟨h, hall⟩
      · intro hall; exact hall.2

/-- C10: with the single pattern sensors/DEVICE/state (DEVICE in braces), which
configureTopics accepts, the tester matches the topics sensors/sensors/state,
sensors/s/state and x/sensors/abc/state/extra with device sensors, s and abc; the
key rebuilt from each is not a key of the topic table, and consumeFunc panics on
the missing entry. -/
theorem consumeFunc_panics_on_rebuilt_key :
    ∃ c, Consumer.configureTopics ⟨Manager.New ⟨[], []⟩, [], []⟩
          [("sensors/\x7bDEVICE\x7d/state".toList, ⟨[], []⟩)] = .ok c
      ∧ mapKeys c.topics = ["sensors/\x7bDEVICE\x7d/state".toList]
      ∧ firstMatch "sensors/sensors/state".toList c.topics []
          = ["sensors/sensors/state".toList, "sensors".toList]
      ∧ stringsReplace1 "sensors/sensors/state".toList "sensors".toList devicePlaceholder
          = "\x7bDEVICE\x7d/sensors/state".toList
      ∧ returns (c.consumeFunc "sensors/sensors/state".toList (fun _ => none) 0) = false
      ∧ firstMatch "sensors/s/state".toList c.topics []
          = ["sensors/s/state".toList, "s".toList]
      ∧ stringsReplace1 "sensors/s/state".toList "s".toList devicePlaceholder
          = "\x7bDEVICE\x7densors/s/state".toList
      ∧ returns (c.consumeFunc "sensors/s/state".toList (fun _ => none) 0) = false
      ∧ firstMatch "x/sensors/abc/state/extra".toList c.topics []
          = ["sensors/abc/state".toList, "abc".toList]
      ∧ stringsReplace1 "x/sensors/abc/state/extra".toList "abc".toList devicePlaceholder
          = "x/sensors/\x7bDEVICE\x7d/state/extra".toList
      ∧ returns (c.consumeFunc "x/sensors/abc/state/extra".toList (fun _ => none) 0)
          = false := by
  refine ⟨_, rfl, ?_, ?_, ?_, ?_, ?_, ?_, ?_, ?_, ?_, ?_⟩ <;> decide

end RemoteSensors
